import Mathlib

/-!
# Verification of the fantastic-router planning pipeline

A shallow embedding, in Lean 4, of the pure parts of the `fantastic-router`
repository (an LLM-powered intent router): query normalization, the dual-cache
key derivation, route validation, the RBAC clamp, the entity resolver's
scoring/dedup/sort pipeline, the planner's confidence bookkeeping, and the
structural-cache template extraction/substitution.

Strings are modelled as `List Char`; Python `float` confidences are modelled
as `ℚ` (all confidence arithmetic in the source is short decimal constants and
the properties at stake are order/equality facts, not rounding facts); Python
dictionaries are modelled as association lists queried by first occurrence.
Each definition names the source function it embeds.  All definitions are
structurally recursive so that concrete runs evaluate inside the kernel.
-/

/-- The character `{` (written via its code point to keep it out of string
literals). -/
def lbrace : Char := Char.ofNat 123

/-- The character `}`. -/
def rbrace : Char := Char.ofNat 125

/-- The character `'`. -/
def apos : Char := Char.ofNat 39

/-- Python `str` whitespace for `strip`/`split` (ASCII portion; the source only
ever feeds ASCII queries through these helpers). -/
def pyIsWs (c : Char) : Bool :=
  c = ' ' || c = '\t' || c = '\n' || c = '\x0d' || c = '\x0b' || c = '\x0c'

/-- Python `str.lower` (ASCII case mapping; queries and routes in the source
are ASCII). -/
def pyLower (s : List Char) : List Char := s.map Char.toLower

/-- Python `str.strip()` with no argument: drop whitespace at both ends. -/
def pyStrip (s : List Char) : List Char :=
  ((s.dropWhile pyIsWs).reverse.dropWhile pyIsWs).reverse

/-- Python `str.strip('/')`: drop `/` at both ends (used by
`FantasticRouter._route_matches_pattern`). -/
def pyStripSlash (s : List Char) : List Char :=
  ((s.dropWhile (· = '/')).reverse.dropWhile (· = '/')).reverse

/-- Python `str.split(sep)` for a one-character separator: keeps empty parts,
`"".split(sep) == [""]`. -/
def splitOnChar (sep : Char) : List Char → List (List Char)
  | [] => [[]]
  | c :: rest =>
    if c = sep then [] :: splitOnChar sep rest
    else
      match splitOnChar sep rest with
      | [] => [[c]]
      | t :: ts => (c :: t) :: ts

/-- Helper for `splitWs`: `cur` is the (reversed) token being accumulated. -/
def splitWsAux : List Char → List Char → List (List Char)
  | [], cur => if cur = [] then [] else [cur.reverse]
  | c :: rest, cur =>
    if pyIsWs c then
      if cur = [] then splitWsAux rest []
      else cur.reverse :: splitWsAux rest []
    else splitWsAux rest (c :: cur)

/-- Python `str.split()` with no argument: split on whitespace runs, no empty
tokens. -/
def splitWs (s : List Char) : List (List Char) := splitWsAux s []

/-- Fuel-driven generic `replace`, the workhorse behind Python
`str.replace(old, new)` (specialised to characters) and the token-level
replacement used to reason about the structural cache.  One unit of fuel is
spent per step; since every step consumes at least one element,
`fuel = length` is always enough (see `repAll`). -/
def repAllFuel [DecidableEq α] (old new : List α) : Nat → List α → List α
  | 0, s => s
  | _ + 1, [] => []
  | fuel + 1, c :: rest =>
    if old ≠ [] ∧ old.isPrefixOf (c :: rest) then
      new ++ repAllFuel old new fuel (rest.drop (old.length - 1))
    else
      c :: repAllFuel old new fuel rest

/-- Replace every non-overlapping occurrence of `old` by `new`, scanning left
to right — Python `str.replace(old, new)` when `α = Char`.  Every call site in
the embedded source passes a non-empty `old` (guarded by truthiness checks);
for `old = []` this returns the input unchanged, which deviates from Python's
boundary-insertion semantics that the source never exercises. -/
def repAll [DecidableEq α] (old new s : List α) : List α :=
  repAllFuel old new s.length s

/-- Substring occurrence test (generic). -/
def isSub [DecidableEq α] (needle : List α) : List α → Bool
  | [] => needle.isEmpty
  | c :: rest => needle.isPrefixOf (c :: rest) || isSub needle rest

/-- Left-to-right substring test, Python `needle in hay`. -/
def pyContains (hay needle : List Char) : Bool := isSub needle hay

/-- Fuel irrelevance for `repAllFuel`: any fuel of at least the input length
computes the same answer. -/
theorem repAllFuel_fuel_irrel [DecidableEq α] (old new : List α) :
    ∀ fuel fuel' (s : List α), s.length ≤ fuel → s.length ≤ fuel' →
      repAllFuel old new fuel s = repAllFuel old new fuel' s := by
  intro fuel
  induction fuel using Nat.strong_induction_on with
  | _ fuel ih =>
    intro fuel' s hf hf'
    cases s with
    | nil => cases fuel <;> cases fuel' <;> rfl
    | cons c rest =>
      cases fuel with
      | zero => simp at hf
      | succ fuel =>
      cases fuel' with
      | zero => simp at hf'
      | succ fuel' =>
      simp only [repAllFuel]
      by_cases h : old ≠ [] ∧ old.isPrefixOf (c :: rest)
      · simp only [if_pos h]
        congr 1
        have hlen : (rest.drop (old.length - 1)).length ≤ rest.length :=
          (List.drop_sublist _ _).length_le
        have h1 : (rest.drop (old.length - 1)).length ≤ fuel := by
          simp at hf; omega
        have h2 : (rest.drop (old.length - 1)).length ≤ fuel' := by
          simp at hf'; omega
        exact ih fuel (Nat.lt_succ_self _) fuel' _ h1 h2
      · simp only [if_neg h]
        congr 1
        have h1 : rest.length ≤ fuel := by simp at hf; omega
        have h2 : rest.length ≤ fuel' := by simp at hf'; omega
        exact ih fuel (Nat.lt_succ_self _) fuel' _ h1 h2

/-- `repAll` on `[]`. -/
theorem repAll_nil [DecidableEq α] (old new : List α) : repAll old new [] = [] := by
  simp [repAll, repAllFuel]

/-- One-step unfolding of `repAll`, hiding the fuel plumbing. -/
theorem repAll_cons [DecidableEq α] (old new : List α) (c : α) (rest : List α) :
    repAll old new (c :: rest) =
      if old ≠ [] ∧ old.isPrefixOf (c :: rest) then
        new ++ repAll old new (rest.drop (old.length - 1))
      else
        c :: repAll old new rest := by
  simp only [repAll, List.length_cons, repAllFuel]
  by_cases h : old ≠ [] ∧ old.isPrefixOf (c :: rest)
  · simp only [if_pos h]
    congr 1
    have hlen : (rest.drop (old.length - 1)).length ≤ rest.length :=
      (List.drop_sublist _ _).length_le
    exact repAllFuel_fuel_irrel old new _ _ _ (by omega) (by omega)
  · simp only [if_neg h, repAll]

/-! ## C1 — route validation (`routes.py _validate_route` / `_pattern_to_regex`,
duplicated verbatim in `single_call_planner.py _validate_llm_route` /
`_pattern_to_regex`)

`_pattern_to_regex` deletes every `{` and `}` from the template and then runs
`re.sub(r'[a-zA-Z_]+', r'[^/]+', ...)`, so EVERY maximal run of ASCII
letters/underscores — parameter name or literal segment alike — becomes a
`[^/]+` wildcard; remaining characters (slashes, digits, hyphens) stay
literal.  The generated regex is then anchored (`^...$`) and tested with
`re.match`.  We embed the generated regex as a token list: `wild` for each
`[^/]+`, `lit c` for each remaining literal character.  This embedding is
exact for templates whose non-alphabetic characters carry no regex
metacharacter meaning (the amended theorem assumes a safe alphabet), and for
routes without a trailing newline (Python `$` also matches before one). -/

/-- A token of the regex produced by `_pattern_to_regex`: a literal character
or one `[^/]+` wildcard. -/
inductive RTok
  | lit (c : Char)
  | wild
deriving DecidableEq

/-- `[a-zA-Z_]` — the class whose maximal runs `_pattern_to_regex` collapses. -/
def isWordAu (c : Char) : Bool := c.isAlpha || c = '_'

/-- Helper for `collapseRuns`; `inRun` records whether the previous character
was part of a letter/underscore run already emitted as a wildcard. -/
def collapseRunsAux : List Char → Bool → List RTok
  | [], _ => []
  | c :: rest, inRun =>
    if isWordAu c then
      if inRun then collapseRunsAux rest true
      else RTok.wild :: collapseRunsAux rest true
    else RTok.lit c :: collapseRunsAux rest false

/-- Collapse each maximal `[a-zA-Z_]+` run to `wild`, keep other characters as
literals (the `re.sub(r'[a-zA-Z_]+', r'[^/]+', ...)` step). -/
def collapseRuns (s : List Char) : List RTok := collapseRunsAux s false

/-- `_pattern_to_regex`: delete braces (`replace('{','').replace('}','')`),
then collapse letter/underscore runs to wildcards. -/
def patternToRegex (p : List Char) : List RTok :=
  collapseRuns (p.filter (fun c => ¬ c = lbrace ∧ ¬ c = rbrace))

/-- Backtracking matcher for the generated anchored regex: `wild` consumes one
or more non-`/` characters, `lit c` consumes exactly `c`, and the whole route
must be consumed (the regex is `^...$` under `re.match`).  The route is the
first argument so the recursion is structural. -/
def rmatch : List Char → List RTok → Bool
  | [], [] => true
  | [], _ :: _ => false
  | _ :: _, [] => false
  | d :: ds, RTok.lit c :: ts => c = d && rmatch ds ts
  | d :: ds, RTok.wild :: ts =>
    ¬ d = '/' && (rmatch ds ts || rmatch ds (RTok.wild :: ts))

/-- `_validate_route` (and its twin `_validate_llm_route`), validity verdict
only: the route must be non-empty, start with `/`, and match the compiled
regex of some non-empty declared pattern (empty patterns are skipped by
`if not pattern: continue`). -/
def validateRoute (route : List Char) (pats : List (List Char)) : Bool :=
  if route = [] ∨ ¬ route.head? = some '/' then false
  else pats.any (fun p => ¬ p = [] && rmatch route (patternToRegex p))

/-- Helper for `specCompile`; `inParam` is true while scanning the inside of a
`{name}` segment. -/
def specCompileAux : List Char → Bool → List RTok
  | [], _ => []
  | c :: rest, inParam =>
    if inParam then
      if c = rbrace then specCompileAux rest false
      else specCompileAux rest true
    else
      if c = lbrace then RTok.wild :: specCompileAux rest true
      else RTok.lit c :: specCompileAux rest false

/-- The claim's (spec §4.C7) compilation: ONLY `{name}` parameter segments
become wildcards; literal template characters must match verbatim. -/
def specCompile (p : List Char) : List RTok := specCompileAux p false

/-- The validity predicate exactly as the claim words it: starts with `/` and
matches the spec-compiled regex of some declared template. -/
def specValid (route : List Char) (pats : List (List Char)) : Bool :=
  route.head? = some '/' && pats.any (fun p => rmatch route (specCompile p))

/-- Declarative semantics of the generated regex: `wild` corresponds to a
non-empty slash-free substring, `lit` to a verbatim character, anchored at
both ends. -/
inductive RMatches : List RTok → List Char → Prop
  | nil : RMatches [] []
  | lit {c : Char} {ts : List RTok} {s : List Char} :
      RMatches ts s → RMatches (RTok.lit c :: ts) (c :: s)
  | wild {w : List Char} {ts : List RTok} {s : List Char} :
      w ≠ [] → (∀ c ∈ w, c ≠ '/') → RMatches ts s →
      RMatches (RTok.wild :: ts) (w ++ s)

/-- Inversion: an empty token list accepts only the empty string. -/
theorem RMatches_nil_inv {s : List Char} (h : RMatches [] s) : s = [] := by
  cases h; rfl

/-- Inversion for a leading literal token. -/
theorem RMatches_lit_inv {c : Char} {ts : List RTok} {s : List Char}
    (h : RMatches (RTok.lit c :: ts) s) :
    ∃ s', s = c :: s' ∧ RMatches ts s' := by
  cases h with
  | lit h' => exact ⟨_, rfl, h'⟩

/-- Inversion for a leading wildcard token. -/
theorem RMatches_wild_inv {ts : List RTok} {s : List Char}
    (h : RMatches (RTok.wild :: ts) s) :
    ∃ w s', s = w ++ s' ∧ w ≠ [] ∧ (∀ c ∈ w, c ≠ '/') ∧ RMatches ts s' := by
  cases h with
  | wild hw hsf h' => exact ⟨_, _, rfl, hw, hsf, h'⟩

/-- The backtracking matcher decides exactly the declarative regex
semantics. -/
theorem rmatch_iff_RMatches : ∀ (s : List Char) (ts : List RTok),
    rmatch s ts = true ↔ RMatches ts s := by
  intro s
  induction s with
  | nil =>
    intro ts
    cases ts with
    | nil =>
      constructor
      · intro _; exact RMatches.nil
      · intro _; rfl
    | cons t ts' =>
      constructor
      · intro h; exact absurd h (by cases t <;> simp [rmatch])
      · intro h
        exfalso
        cases t with
        | lit c =>
          rcases RMatches_lit_inv h with ⟨s', hs, _⟩
          exact absurd hs (by simp)
        | wild =>
          rcases RMatches_wild_inv h with ⟨w, s', hs, hw, _, _⟩
          exact hw (List.append_eq_nil.mp hs.symm).1
  | cons d ds ih =>
    intro ts
    cases ts with
    | nil =>
      constructor
      · intro h; exact absurd h (by simp [rmatch])
      · intro h; exact absurd (RMatches_nil_inv h) (by simp)
    | cons t ts' =>
      cases t with
      | lit c =>
        simp only [rmatch, Bool.and_eq_true, decide_eq_true_eq, ih]
        constructor
        · rintro ⟨rfl, h⟩; exact RMatches.lit h
        · intro h
          rcases RMatches_lit_inv h with ⟨s', hs, h'⟩
          injection hs with h1 h2
          subst h1
          subst h2
          exact ⟨rfl, h'⟩
      | wild =>
        simp only [rmatch, Bool.and_eq_true, Bool.or_eq_true, decide_eq_true_eq, ih]
        constructor
        · rintro ⟨hd, h | h⟩
          · exact RMatches.wild (w := [d]) (by simp) (by simpa using hd) h
          · rcases RMatches_wild_inv h with ⟨w, s', rfl, hw, hsf, h'⟩
            exact RMatches.wild (w := d :: w) (by simp)
              (by
                intro c hc
                rcases List.mem_cons.mp hc with rfl | hc
                · exact hd
                · exact hsf c hc)
              h'
        · intro h
          rcases RMatches_wild_inv h with ⟨w, s', heq, hw, hsf, h'⟩
          cases w with
          | nil => exact absurd rfl hw
          | cons w0 wrest =>
            rw [List.cons_append] at heq
            injection heq with h1 h2
            subst h1
            refine ⟨hsf _ (by simp), ?_⟩
            cases wrest with
            | nil =>
              left
              simp only [List.nil_append] at h2
              subst h2
              exact h'
            | cons w1 wrest' =>
              right
              rw [h2]
              exact RMatches.wild (by simp)
                (fun c hc => hsf c (List.mem_cons_of_mem _ hc)) h'

/-- C1 (amended), core equivalence: the code's validity verdict holds iff the
route starts with `/` and the declarative semantics of some non-empty
pattern's compiled regex — wildcards for ALL letter/underscore runs, not just
`{name}` segments — accepts it.  The two hypotheses delimit where the
regex-string embedding is exact: template characters must carry no regex
metacharacter meaning outside the collapsed runs, and the route must not end
in a newline (Python `$`). -/
theorem c1_route_validation (route : List Char) (pats : List (List Char))
    (hsafe : ∀ p ∈ pats, ∀ c ∈ p,
      c.isAlphanum ∨ c ∈ [lbrace, rbrace, '/', '-', '_'])
    (hnl : '\n' ∉ route) :
    validateRoute route pats = true ↔
      route.head? = some '/' ∧
        ∃ p ∈ pats, p ≠ [] ∧ RMatches (patternToRegex p) route := by
  unfold validateRoute
  by_cases h : route = [] ∨ ¬ route.head? = some '/'
  · simp only [if_pos h]
    constructor
    · intro hf; cases hf
    · rintro ⟨hh, _⟩
      rcases h with h | h
      · subst h; simp at hh
      · exact absurd hh h
  · simp only [if_neg h]
    push_neg at h
    simp only [List.any_eq_true, Bool.and_eq_true, decide_eq_true_eq,
      rmatch_iff_RMatches]
    constructor
    · rintro ⟨p, hp, hne, hm⟩
      exact ⟨h.2, p, hp, hne, hm⟩
    · rintro ⟨_, p, hp, hne, hm⟩
      exact ⟨p, hp, hne, hm⟩

/-- Witness for `c1_route_validation` at a concrete configuration route and
template. -/
theorem c1_route_validation_witness :
    validateRoute "/landlords/L-9/financials".toList
        ["/{entity_type}/{entity_id}/{view_type}".toList] = true ↔
      "/landlords/L-9/financials".toList.head? = some '/' ∧
        ∃ p ∈ ["/{entity_type}/{entity_id}/{view_type}".toList], p ≠ [] ∧
          RMatches (patternToRegex p) "/landlords/L-9/financials".toList :=
  c1_route_validation _ _ (by decide) (by decide)

/-- C1 counterexample: the code accepts `/a/b` against the all-literal
template `/landlords/search` (its literal segments are collapsed to `[^/]+`
wildcards too), while the claim's compilation — literals verbatim — rejects
it.  So validity is NOT "starts with `/` and matches some template with only
the `{name}` segments generalised". -/
theorem c1_counterexample :
    validateRoute "/a/b".toList ["/landlords/search".toList] = true ∧
      specValid "/a/b".toList ["/landlords/search".toList] = false := by
  constructor
  · decide
  · decide

/-! ## C5 / C10 — the RBAC clamp (`fantastic_router_core/__init__.py`,
`FantasticRouter.plan` lines 84-90, `_check_route_permissions`,
`_route_matches_pattern`) -/

/-- `ActionType` (`models/actions.py`). -/
inductive ActionTypeM
  | NAVIGATE | QUERY | MUTATION | CREATE | EDIT | DELETE
deriving DecidableEq

/-- `RouteParameter` (`models/actions.py`); `type` is renamed `ptype`. -/
structure RouteParamM where
  name : List Char
  value : List Char
  ptype : List Char
  source : List Char
deriving DecidableEq

/-- The fields of `EntityMatch` the planner reads (`models/entities.py`). -/
structure EMatch where
  id : List Char
  name : List Char
  table : List Char
  confidence : ℚ
deriving DecidableEq

/-- The fields of `ActionPlan` (`models/actions.py`) that the embedded
pipeline reads or writes. -/
structure PlanM where
  actionType : ActionTypeM
  route : List Char
  confidence : ℚ
  parameters : List RouteParamM
  entities : List EMatch
  reasoning : List Char
  matchedPattern : List Char
deriving DecidableEq

/-- `RoutePattern`, restricted to the fields the RBAC check reads.  The
source's `required_roles: Optional[List[str]]` defaulting to `None` is
modelled as a list, `None ↦ []`: the only use is the truthiness test
`if pattern.required_roles`, on which `None` and `[]` agree. -/
structure RPat where
  pattern : List Char
  requiredRoles : List (List Char)
deriving DecidableEq

/-- `FantasticRouter._route_matches_pattern`: strip `/` from both ends of both
strings, split on `/`, require equal segment counts, and require each
non-`{...}` pattern segment to equal the route segment. -/
def routeMatchesPattern (route pat : List Char) : Bool :=
  let rp := splitOnChar '/' (pyStripSlash route)
  let pp := splitOnChar '/' (pyStripSlash pat)
  rp.length = pp.length &&
    (rp.zip pp).all (fun q =>
      (q.2.head? = some lbrace && q.2.getLast? = some rbrace) || q.1 = q.2)

/-- `FantasticRouter._check_route_permissions`: walk the configured patterns;
the FIRST one matching the route decides (role list empty → allow, otherwise
membership); no match → allow. -/
def checkRoutePermissions (route role : List Char) : List RPat → Bool
  | [] => true
  | p :: rest =>
    if routeMatchesPattern route p.pattern then
      if p.requiredRoles = [] then true else decide (role ∈ p.requiredRoles)
    else checkRoutePermissions route role rest

/-- The reasoning suffix appended on denial
(`"\nAccess denied: Insufficient permissions for this route"`). -/
def accessDeniedNote : List Char :=
  '\n' :: "Access denied: Insufficient permissions for this route".toList

/-- The RBAC post-processing inside `FantasticRouter.plan`:
`if user_role and not self._check_route_permissions(...)` then clamp
confidence to 0 and append the access-denied note; the route itself is not
touched.  `user_role` is `Option`al and the empty string is falsy. -/
def applyRBAC (pats : List RPat) (userRole : Option (List Char)) (plan : PlanM) :
    PlanM :=
  match userRole with
  | none => plan
  | some ur =>
    if ur ≠ [] ∧ checkRoutePermissions plan.route ur pats = false then
      { plan with confidence := 0, reasoning := plan.reasoning ++ accessDeniedNote }
    else plan

/-- If the first configured pattern matching the route declares a non-empty
role list excluding `role`, the permission check denies. -/
theorem checkRoutePermissions_eq_false (route role : List Char)
    (pats : List RPat) (p : RPat)
    (hfind : pats.find? (fun q => routeMatchesPattern route q.pattern) = some p)
    (hroles : p.requiredRoles ≠ []) (hexcl : role ∉ p.requiredRoles) :
    checkRoutePermissions route role pats = false := by
  induction pats with
  | nil => simp at hfind
  | cons p0 rest ih =>
    by_cases h : routeMatchesPattern route p0.pattern = true
    · rw [List.find?_cons_of_pos _ (by simpa using h)] at hfind
      injection hfind with h'
      subst h'
      simp [checkRoutePermissions, h, hroles, hexcl]
    · rw [List.find?_cons_of_neg _ (by simpa using h)] at hfind
      simp [checkRoutePermissions, h, ih hfind]

/-- C5 (amended): when a non-empty caller role is supplied and the FIRST
configured `RoutePattern` matching the plan's route declares a non-empty
`required_roles` list that excludes the role, the service returns the plan
with confidence exactly 0, the access-denied note appended to its reasoning,
and the route unchanged. -/
theorem c5_rbac_clamp (pats : List RPat) (ur : List Char) (plan : PlanM)
    (p : RPat) (hur : ur ≠ [])
    (hfind : pats.find? (fun q => routeMatchesPattern plan.route q.pattern) = some p)
    (hroles : p.requiredRoles ≠ []) (hexcl : ur ∉ p.requiredRoles) :
    (applyRBAC pats (some ur) plan).confidence = 0 ∧
      (applyRBAC pats (some ur) plan).reasoning = plan.reasoning ++ accessDeniedNote ∧
      (applyRBAC pats (some ur) plan).route = plan.route := by
  have hchk := checkRoutePermissions_eq_false plan.route ur pats p hfind hroles hexcl
  simp [applyRBAC, hur, hchk]

/-- Witness for `c5_rbac_clamp`: the spec's own RBAC scenario — pattern
`/admin/{x}` requiring role `admin`, caller role `user`. -/
theorem c5_rbac_clamp_witness :
    (applyRBAC [RPat.mk "/admin/{x}".toList ["admin".toList]]
        (some "user".toList)
        (PlanM.mk ActionTypeM.NAVIGATE "/admin/7".toList (9/10) [] []
          "r".toList [])).confidence = 0 ∧
      (applyRBAC [RPat.mk "/admin/{x}".toList ["admin".toList]]
          (some "user".toList)
          (PlanM.mk ActionTypeM.NAVIGATE "/admin/7".toList (9/10) [] []
            "r".toList [])).reasoning = "r".toList ++ accessDeniedNote ∧
      (applyRBAC [RPat.mk "/admin/{x}".toList ["admin".toList]]
          (some "user".toList)
          (PlanM.mk ActionTypeM.NAVIGATE "/admin/7".toList (9/10) [] []
            "r".toList [])).route = "/admin/7".toList :=
  c5_rbac_clamp _ _ _ (RPat.mk "/admin/{x}".toList ["admin".toList])
    (by decide) (by decide) (by decide) (by decide)

/-- C5 counterexample: the permission walk stops at the FIRST matching
pattern.  Here the route `/x/1` matches both declared patterns; the second
declares `required_roles = ["admin"]` which excludes the caller role
`guest` — the claim as stated ("matches A RoutePattern that declares
required_roles not containing the caller's role") therefore demands a clamp —
yet the first matching pattern has no role requirement, so the plan is
returned untouched with confidence 9/10 ≠ 0 and no note appended. -/
theorem c5_counterexample :
    routeMatchesPattern "/x/1".toList "/x/{id}".toList = true ∧
      "guest".toList ∉ ["admin".toList] ∧
      applyRBAC
          [RPat.mk "/x/{id}".toList [], RPat.mk "/x/{id}".toList ["admin".toList]]
          (some "guest".toList)
          (PlanM.mk ActionTypeM.NAVIGATE "/x/1".toList (9/10) [] [] "r".toList []) =
        PlanM.mk ActionTypeM.NAVIGATE "/x/1".toList (9/10) [] [] "r".toList [] := by
  refine ⟨by decide, by decide, by with_unfolding_all decide⟩

/-- C10: with no caller role (`None`) or an empty one (both falsy in
`if user_role and ...`), the RBAC check is skipped entirely: the plan is
returned unchanged — no confidence clamp, no access-denied note — whatever
the configured patterns demand. -/
theorem c10_no_role_skips_rbac (pats : List RPat) (plan : PlanM) :
    applyRBAC pats none plan = plan ∧ applyRBAC pats (some []) plan = plan := by
  refine ⟨rfl, ?_⟩
  simp [applyRBAC]

/-! ## C2 — planner behaviour on a Predictor timeout
(`adapters/llm/openai.py OpenAILLMClient.analyze` catching
`asyncio.TimeoutError`, and
`single_call_planner.py SingleCallActionPlanner._build_action_plan`) -/

/-- JSON-shaped values as returned by the Predictor port (Python dicts from
`json.loads`). -/
inductive JVal
  | jnull
  | jbool (b : Bool)
  | jnum (q : ℚ)
  | jstr (s : List Char)
  | jarr (xs : List JVal)
  | jobj (kvs : List (List Char × JVal))

/-- Python `dict.get(k)` (`None` when missing); objects are association lists
read at first occurrence (dict keys are unique). -/
def jGet : JVal → List Char → Option JVal
  | JVal.jobj kvs, k => (kvs.find? (fun kv => kv.1 = k)).map (fun kv => kv.2)
  | _, _ => none

/-- Python `dict.get(k, dflt)`. -/
def jGetD (v : JVal) (k : List Char) (dflt : JVal) : JVal := (jGet v k).getD dflt

/-- Python `x or dflt` for an optional string-valued field: `None`, a missing
key and the empty string are falsy.  (A non-string truthy value would flow on
in Python and crash at the next string operation; the Predictor contract
returns strings here, and no theorem below exercises that case.) -/
def pyOrStr (v : Option JVal) (dflt : List Char) : List Char :=
  match v with
  | some (JVal.jstr s) => if s = [] then dflt else s
  | _ => dflt

/-- Digit run → value, for `pyFloatOfStr`. -/
def natFromDigits (s : List Char) : ℕ :=
  s.foldl (fun a c => 10 * a + (c.toNat - 48)) 0

/-- Python `float(str)` on plain decimal forms (sign, digits, optional
fractional part); scientific notation and specials are not modelled (never
produced by the embedded call sites, whose inputs are numbers or absent). -/
def pyFloatOfStr (s : List Char) : Option ℚ :=
  let t := pyStrip s
  let sgn : ℚ := if t.head? = some '-' then -1 else 1
  let t2 := if t.head? = some '-' ∨ t.head? = some '+' then t.tail else t
  let intPart := t2.takeWhile Char.isDigit
  let rest := t2.dropWhile Char.isDigit
  match rest with
  | [] => if intPart = [] then none else some (sgn * natFromDigits intPart)
  | c :: fr =>
    if c = '.' then
      let fracPart := fr.takeWhile Char.isDigit
      let rest2 := fr.dropWhile Char.isDigit
      if rest2 = [] ∧ ¬ (intPart = [] ∧ fracPart = []) then
        some (sgn * (natFromDigits intPart +
          (natFromDigits fracPart : ℚ) / 10 ^ fracPart.length))
      else none
    else none

/-- Python `float(x)` inside `try: float(llm_response.get(...)) except: 0.5`:
numbers pass through, booleans coerce, parseable strings parse, everything
else raises (→ `none`). -/
def pyFloat : JVal → Option ℚ
  | JVal.jnum q => some q
  | JVal.jbool b => some (if b then 1 else 0)
  | JVal.jstr s => pyFloatOfStr s
  | _ => none

/-- `SingleCallActionPlanner._get_fallback_route`: first pattern containing
`"search"`, with `{entity_type}` filled as `landlords`; else the first
pattern with all three standard parameters filled; else the static
`/landlords/search`. -/
def getFallbackRoute (pats : List (List Char)) : List Char :=
  match pats.find? (fun p => pyContains p "search".toList) with
  | some p => repAll "{entity_type}".toList "landlords".toList p
  | none =>
    match pats with
    | [] => "/landlords/search".toList
    | p :: _ =>
      repAll "{view_type}".toList "overview".toList
        (repAll "{entity_id}".toList "search".toList
          (repAll "{entity_type}".toList "landlords".toList p))

/-- `ActionType(action_type_str)` with `except ValueError: NAVIGATE`. -/
def coerceActionType (s : List Char) : ActionTypeM :=
  if s = "NAVIGATE".toList then ActionTypeM.NAVIGATE
  else if s = "QUERY".toList then ActionTypeM.QUERY
  else if s = "MUTATION".toList then ActionTypeM.MUTATION
  else if s = "CREATE".toList then ActionTypeM.CREATE
  else if s = "EDIT".toList then ActionTypeM.EDIT
  else if s = "DELETE".toList then ActionTypeM.DELETE
  else ActionTypeM.NAVIGATE

/-- The parameter loop of `_build_action_plan`: each parameter's value is
`param.get('value') or ''`; the literal `ENTITY_ID_PLACEHOLDER` is replaced —
in the value and in the route — by the first resolved entity's id.  Returns
the final route and the built parameter list. -/
def applyParams (entities : List EMatch) : List JVal → List Char →
    (List Char × List RouteParamM)
  | [], route => (route, [])
  | pj :: rest, route =>
    let v0 := pyOrStr (jGet pj "value".toList) []
    let step :=
      if v0 = "ENTITY_ID_PLACEHOLDER".toList ∧ ¬ entities = [] then
        match entities with
        | e :: _ => (e.id, repAll "ENTITY_ID_PLACEHOLDER".toList e.id route)
        | [] => (v0, route)
      else (v0, route)
    let next := applyParams entities rest step.2
    (next.1,
      RouteParamM.mk (pyOrStr (jGet pj "name".toList) []) step.1
        (pyOrStr (jGet pj "type".toList) "string".toList)
        (pyOrStr (jGet pj "source".toList) "llm".toList) :: next.2)

/-- `SingleCallActionPlanner._build_action_plan`: extract intent and route
info with defaults, validate the LLM's route (fallback when invalid),
substitute the entity-id placeholder, coerce the action type, read
`overall_confidence` (default 0.5 on missing key or parse failure) and
subtract 0.3 (floored at 0.1) when the fallback route was needed. -/
def buildActionPlan (routePatterns : List (List Char)) (llmResponse : JVal)
    (entities : List EMatch) : PlanM :=
  let intent := jGetD llmResponse "intent".toList (JVal.jobj [])
  let routeInfo := jGetD llmResponse "route_matching".toList (JVal.jobj [])
  let resolvedRoute0 := pyOrStr (jGet routeInfo "resolved_route".toList) "/".toList
  let matchedPattern := pyOrStr (jGet routeInfo "matched_pattern".toList) []
  let isValid := validateRoute resolvedRoute0 routePatterns
  let route1 := if isValid then resolvedRoute0 else getFallbackRoute routePatterns
  let paramsJ :=
    match jGetD routeInfo "parameters".toList (JVal.jarr []) with
    | JVal.jarr xs => xs
    | _ => []
  let built := applyParams entities paramsJ route1
  let conf0 :=
    match jGet llmResponse "overall_confidence".toList with
    | none => (1 : ℚ) / 2
    | some v => (pyFloat v).getD ((1 : ℚ) / 2)
  let conf1 := if isValid then conf0 else max ((1 : ℚ) / 10) (conf0 - 3 / 10)
  let atype := coerceActionType (pyOrStr (jGet intent "action_type".toList)
    "NAVIGATE".toList)
  let reasoning := "LLM Analysis: ".toList ++
    (match jGet llmResponse "reasoning".toList with
     | some (JVal.jstr s) => s
     | some _ => []
     | none => "No reasoning provided".toList)
  PlanM.mk atype built.1 conf1 built.2 entities reasoning matchedPattern

/-- The object `OpenAILLMClient.analyze` returns when `asyncio.wait_for`
raises `TimeoutError`: note it carries its zero confidence under the key
`"confidence"`, while the planner reads `"overall_confidence"`. -/
def timeoutResponse : JVal :=
  JVal.jobj
    [("error".toList, JVal.jstr "LLM request timed out".toList),
     ("confidence".toList, JVal.jnum 0),
     ("reasoning".toList, JVal.jstr "Request took too long to complete".toList)]

/-- Route patterns of the quickstart configuration (the shapes the planner is
normally run with). -/
def demoPatterns : List (List Char) :=
  ["/{entity_type}/{entity_id}/{view_type}".toList,
   "/{entity_type}/search".toList,
   "/{entity_type}/create".toList]

/-- C2, evaluated at the failing input: after a Predictor timeout the planner
still produces a plan (so the service returns `success = true`), with
`action_kind = navigate` and empty entities as the spec says — but its
confidence is `max(0.1, 0.5 - 0.3) = 0.2`, NOT `≤ 0.1`: the planner reads
`overall_confidence` (absent; default 0.5) instead of the adapter's
`confidence: 0.0`, then subtracts the fallback penalty 0.3. -/
theorem c2_timeout_confidence :
    (buildActionPlan demoPatterns timeoutResponse []).confidence = 1/5 ∧
      ¬ ((buildActionPlan demoPatterns timeoutResponse []).confidence ≤ 1/10) ∧
      (buildActionPlan demoPatterns timeoutResponse []).route =
        "/landlords/search".toList ∧
      (buildActionPlan demoPatterns timeoutResponse []).actionType =
        ActionTypeM.NAVIGATE ∧
      (buildActionPlan demoPatterns timeoutResponse []).entities = [] := by
  with_unfolding_all decide

/-! ## C3 — the query normalizer (`routes.py _normalize_query`)

Stages: lowercase + trim; strip one leading filler verb (the source iterates a
Python `set` literal whose order is unspecified — the embedding fixes the
literal's textual order, and every theorem below is insensitive to it); the
possessive rewrite `re.sub(r'(\w+)s\s+(\w+)', r"\1's \2", ...)`; three
word-bounded synonym rewrites. -/

/-- Python `\w` on the ASCII inputs used here: letters, digits, underscore. -/
def isWordCh (c : Char) : Bool := c.isAlphanum || c = '_'

/-- The source's filler set, in its textual order. -/
def fillerWords : List (List Char) :=
  ["show me".toList, "show".toList, "get".toList, "find".toList,
   "look up".toList, "search for".toList, "display".toList, "view".toList,
   "see".toList, "give me".toList, "bring up".toList]

/-- The filler loop: the first filler `f` with `normalized.startswith(f + ' ')`
is stripped (then re-`strip`ped), and the loop breaks. -/
def removeFiller : List (List Char) → List Char → List Char
  | [], s => s
  | f :: rest, s =>
    if (f ++ [' ']).isPrefixOf s then pyStrip (s.drop f.length)
    else removeFiller rest s

/-- One left-to-right pass of `re.sub(r'(\w+)s\s+(\w+)', r"\1's \2", ...)`.
At each position the regex matches iff the maximal `\w`-run starting there has
length ≥ 2 and ends in `s`, followed by ≥ 1 whitespace and ≥ 1 word character
(backtracking settles the greedy `(\w+)` on the run minus its final `s`); the
match consumes run + whitespace + second run and is replaced by
`run-minus-s ++ "'s " ++ second-run`. -/
def possSubFuel : Nat → List Char → List Char
  | 0, s => s
  | _ + 1, [] => []
  | fuel + 1, c :: cs =>
    if 2 ≤ ((c :: cs).takeWhile isWordCh).length ∧
        ((c :: cs).takeWhile isWordCh).getLast? = some 's' ∧
        1 ≤ (((c :: cs).dropWhile isWordCh).takeWhile pyIsWs).length ∧
        1 ≤ ((((c :: cs).dropWhile isWordCh).dropWhile pyIsWs).takeWhile
              isWordCh).length then
      ((c :: cs).takeWhile isWordCh).dropLast ++ [apos, 's', ' '] ++
        (((c :: cs).dropWhile isWordCh).dropWhile pyIsWs).takeWhile isWordCh ++
        possSubFuel fuel
          ((((c :: cs).dropWhile isWordCh).dropWhile pyIsWs).dropWhile isWordCh)
    else
      c :: possSubFuel fuel cs

/-- The possessive rewrite (fuel instantiated). -/
def possSub (s : List Char) : List Char := possSubFuel s.length s

/-- After a candidate alternative `a` matched as a prefix, `\b` demands the
next character not be a word character (or the string to end). -/
def wordBoundaryAfter (a s : List Char) : Bool :=
  match (s.drop a.length).head? with
  | some d => ¬ isWordCh d
  | none => true

/-- One pass of `re.sub(r'\b(alt₁|alt₂|...)\b', repl, ...)` for word
alternatives: at each position whose predecessor is not a word character, the
alternatives are tried in order (each must be a prefix and be followed by a
word boundary); a match is replaced by `repl` and the scan resumes after the
matched text (`prevW` tracks whether the previous character was a word
character). -/
def wordSubFuel (alts : List (List Char)) (repl : List Char) :
    Nat → Bool → List Char → List Char
  | 0, _, s => s
  | _ + 1, _, [] => []
  | fuel + 1, prevW, c :: cs =>
    if ¬ prevW ∧ isWordCh c then
      match alts.find? (fun a =>
          a.isPrefixOf (c :: cs) && wordBoundaryAfter a (c :: cs)) with
      | some a =>
        repl ++ wordSubFuel alts repl fuel true ((c :: cs).drop a.length)
      | none => c :: wordSubFuel alts repl fuel (isWordCh c) cs
    else
      c :: wordSubFuel alts repl fuel (isWordCh c) cs

/-- A word-bounded synonym rewrite (fuel instantiated; scan starts with no
preceding word character). -/
def wordSub (alts : List (List Char)) (repl : List Char) (s : List Char) :
    List Char :=
  wordSubFuel alts repl s.length false s

/-- `re.sub(r'\b(properties|property)\b', 'properties', ...)`. -/
def synProps (s : List Char) : List Char :=
  wordSub ["properties".toList, "property".toList] "properties".toList s

/-- `re.sub(r'\b(income|earnings|salary)\b', 'income', ...)`. -/
def synIncome (s : List Char) : List Char :=
  wordSub ["income".toList, "earnings".toList, "salary".toList] "income".toList s

/-- `re.sub(r'\b(contact|info|information)\b', 'contact', ...)`. -/
def synContact (s : List Char) : List Char :=
  wordSub ["contact".toList, "info".toList, "information".toList]
    "contact".toList s

/-- `_normalize_query`: lowercase + trim, strip one filler verb, rewrite bare
possessives, canonicalize the three synonym families. -/
def normalizeQuery (q : List Char) : List Char :=
  synContact (synIncome (synProps (possSub
    (removeFiller fillerWords (pyStrip (pyLower q))))))


/-- `Char.ofNat` returns its argument's code point back for values below the
surrogate range. -/
theorem toNat_ofNat_valid (n : Nat) (h : n < 55296) : (Char.ofNat n).toNat = n := by
  simp [Char.ofNat, Char.ofNatAux, Char.toNat, Nat.isValidChar, UInt32.toNat, h]

/-- ASCII `toLower` is idempotent. -/
theorem toLower_idem (c : Char) : Char.toLower (Char.toLower c) = Char.toLower c := by
  unfold Char.toLower
  by_cases h : c.toNat ≥ 65 ∧ c.toNat ≤ 90
  · simp only [if_pos h]
    have hv : (Char.ofNat (c.toNat + 32)).toNat = c.toNat + 32 :=
      toNat_ofNat_valid _ (by omega)
    rw [if_neg (by omega)]
  · simp only [if_neg h]

/-- A string all of whose characters are `toLower`-fixed is `pyLower`-fixed. -/
theorem pyLower_eq_self {s : List Char} (h : ∀ c ∈ s, Char.toLower c = c) :
    pyLower s = s := by
  unfold pyLower
  conv_rhs => rw [← List.map_id s]
  exact List.map_congr_left h

/-- Every character of a `pyLower` output is `toLower`-fixed. -/
theorem allLower_pyLower (s : List Char) : ∀ c ∈ pyLower s, Char.toLower c = c := by
  intro c hc
  rcases List.mem_map.mp hc with ⟨d, _, rfl⟩
  exact toLower_idem d

/-- Membership passes through `pyStrip`. -/
theorem mem_of_mem_pyStrip {c : Char} {s : List Char} (h : c ∈ pyStrip s) : c ∈ s := by
  unfold pyStrip at h
  rw [List.mem_reverse] at h
  have h1 := (List.dropWhile_sublist (l := (s.dropWhile pyIsWs).reverse) pyIsWs).mem h
  rw [List.mem_reverse] at h1
  exact (List.dropWhile_sublist (l := s) pyIsWs).mem h1

/-- Membership passes through `removeFiller`. -/
theorem mem_of_mem_removeFiller {c : Char} :
    ∀ (fs : List (List Char)) (s : List Char), c ∈ removeFiller fs s → c ∈ s := by
  intro fs
  induction fs with
  | nil => intro s h; exact h
  | cons f rest ih =>
    intro s h
    unfold removeFiller at h
    by_cases hp : (f ++ [' ']).isPrefixOf s = true
    · rw [if_pos hp] at h
      exact (List.drop_sublist _ _).mem (mem_of_mem_pyStrip h)
    · rw [if_neg hp] at h
      exact ih s h

/-- A nonempty `u` that is a suffix of `s` shares its last element. -/
theorem getLast?_of_suffix {u s : List α} (h : u <:+ s) (hu : u ≠ []) :
    u.getLast? = s.getLast? := by
  rcases h with ⟨w, rfl⟩
  rw [List.getLast?_append]
  cases hul : u.getLast? with
  | none => exact absurd (List.getLast?_eq_none_iff.mp hul) hu
  | some c => rfl

/-- `pyStrip` is the identity on strings with non-whitespace ends. -/
theorem pyStrip_eq_self {s : List Char}
    (h1 : ∀ c, s.head? = some c → pyIsWs c = false)
    (h2 : ∀ c, s.getLast? = some c → pyIsWs c = false) :
    pyStrip s = s := by
  have front : ∀ (t : List Char), (∀ c, t.head? = some c → pyIsWs c = false) →
      t.dropWhile pyIsWs = t := by
    intro t ht
    cases t with
    | nil => rfl
    | cons c cs =>
      rw [List.dropWhile_cons_of_neg]
      simp [ht c rfl]
  unfold pyStrip
  rw [front s h1, front s.reverse, List.reverse_reverse]
  intro c hc
  rw [List.head?_reverse] at hc
  exact h2 c hc

/-- The head of a `pyStrip` output is not whitespace. -/
theorem pyStrip_head? (s : List Char) :
    ∀ c, (pyStrip s).head? = some c → pyIsWs c = false := by
  intro c hc
  unfold pyStrip at hc
  rw [List.head?_reverse] at hc
  have hne : (s.dropWhile pyIsWs).reverse.dropWhile pyIsWs ≠ [] := by
    intro he
    rw [he] at hc
    simp at hc
  have hsuff : (s.dropWhile pyIsWs).reverse.dropWhile pyIsWs <:+
      (s.dropWhile pyIsWs).reverse := List.dropWhile_suffix pyIsWs
  rw [getLast?_of_suffix hsuff hne, List.getLast?_reverse] at hc
  have := List.head?_dropWhile_not pyIsWs s
  rw [hc] at this
  simpa using this

/-- The last character of a `pyStrip` output is not whitespace. -/
theorem pyStrip_getLast? (s : List Char) :
    ∀ c, (pyStrip s).getLast? = some c → pyIsWs c = false := by
  intro c hc
  unfold pyStrip at hc
  rw [List.getLast?_reverse] at hc
  have := List.head?_dropWhile_not pyIsWs (s.dropWhile pyIsWs).reverse
  rw [hc] at this
  simpa using this

/-- `removeFiller` output: non-whitespace head (given the input has one). -/
theorem removeFiller_head? :
    ∀ (fs : List (List Char)) (s : List Char),
      (∀ c, s.head? = some c → pyIsWs c = false) →
      ∀ c, (removeFiller fs s).head? = some c → pyIsWs c = false := by
  intro fs
  induction fs with
  | nil => intro s hs; exact hs
  | cons f rest ih =>
    intro s hs c hc
    unfold removeFiller at hc
    by_cases hp : (f ++ [' ']).isPrefixOf s = true
    · rw [if_pos hp] at hc
      exact pyStrip_head? _ c hc
    · rw [if_neg hp] at hc
      exact ih s hs c hc

/-- `removeFiller` output: non-whitespace last character. -/
theorem removeFiller_getLast? :
    ∀ (fs : List (List Char)) (s : List Char),
      (∀ c, s.getLast? = some c → pyIsWs c = false) →
      ∀ c, (removeFiller fs s).getLast? = some c → pyIsWs c = false := by
  intro fs
  induction fs with
  | nil => intro s hs; exact hs
  | cons f rest ih =>
    intro s hs c hc
    unfold removeFiller at hc
    by_cases hp : (f ++ [' ']).isPrefixOf s = true
    · rw [if_pos hp] at hc
      exact pyStrip_getLast? _ c hc
    · rw [if_neg hp] at hc
      exact ih s hs c hc

/-- Word characters are not whitespace. -/
theorem isWordCh_not_ws {c : Char} (h : isWordCh c = true) : pyIsWs c = false := by
  by_contra h'
  have hw : pyIsWs c = true := by simpa using h'
  simp only [pyIsWs, Bool.or_eq_true, decide_eq_true_eq] at hw
  rcases hw with ((((rfl | rfl) | rfl) | rfl) | rfl) | rfl <;>
    exact absurd h (by decide)

/-- `possSubFuel` maps `[]` to `[]` at any fuel. -/
theorem possSubFuel_nil (fuel : Nat) : possSubFuel fuel [] = [] := by
  cases fuel <;> rfl

/-- `possSubFuel` maps non-empty input to non-empty output. -/
theorem possSubFuel_ne_nil (fuel : Nat) (s : List Char) (hs : s ≠ []) :
    possSubFuel fuel s ≠ [] := by
  cases fuel with
  | zero => simpa [possSubFuel] using hs
  | succ fuel =>
    cases s with
    | nil => exact absurd rfl hs
    | cons c cs =>
      unfold possSubFuel
      by_cases h : 2 ≤ ((c :: cs).takeWhile isWordCh).length ∧
          ((c :: cs).takeWhile isWordCh).getLast? = some 's' ∧
          1 ≤ (((c :: cs).dropWhile isWordCh).takeWhile pyIsWs).length ∧
          1 ≤ ((((c :: cs).dropWhile isWordCh).dropWhile pyIsWs).takeWhile
                isWordCh).length
      · simp [if_pos h]
      · simp [if_neg h]

/-- The tail of a cons whose tail is non-empty carries the last element. -/
theorem getLast?_cons_of_ne_nil {c : α} {l : List α} (h : l ≠ []) :
    (c :: l).getLast? = l.getLast? := by
  have : c :: l = [c] ++ l := rfl
  rw [this, List.getLast?_append]
  cases hl : l.getLast? with
  | none => exact absurd (List.getLast?_eq_none_iff.mp hl) h
  | some a => rfl

/-- Appending a non-empty list on the right determines the last element. -/
theorem getLast?_append_right {x y : List α} (h : y ≠ []) :
    (x ++ y).getLast? = y.getLast? := by
  rw [List.getLast?_append]
  cases hy : y.getLast? with
  | none => exact absurd (List.getLast?_eq_none_iff.mp hy) h
  | some a => rfl

/-- `possSubFuel` preserves the first character. -/
theorem possSubFuel_head? (fuel : Nat) (s : List Char) :
    (possSubFuel fuel s).head? = s.head? := by
  cases fuel with
  | zero => rfl
  | succ fuel =>
    cases s with
    | nil => rfl
    | cons c cs =>
      unfold possSubFuel
      by_cases h : 2 ≤ ((c :: cs).takeWhile isWordCh).length ∧
          ((c :: cs).takeWhile isWordCh).getLast? = some 's' ∧
          1 ≤ (((c :: cs).dropWhile isWordCh).takeWhile pyIsWs).length ∧
          1 ≤ ((((c :: cs).dropWhile isWordCh).dropWhile pyIsWs).takeWhile
                isWordCh).length
      · simp only [if_pos h]
        have hw : isWordCh c = true := by
          by_contra hw
          have h1 := h.1
          rw [List.takeWhile_cons_of_neg (by simpa using hw)] at h1
          simp at h1
        have hr2 : List.takeWhile isWordCh (c :: cs) =
            c :: List.takeWhile isWordCh cs := List.takeWhile_cons_of_pos hw
        cases htk : List.takeWhile isWordCh cs with
        | nil =>
          have h1 := h.1
          rw [hr2, htk] at h1
          simp at h1
        | cons d ds =>
          rw [hr2, htk]
          simp
      · simp [if_neg h]

/-- Where the last character of a `possSubFuel` output comes from: the input's
last character, or a word character. -/
theorem possSubFuel_getLast? (fuel : Nat) :
    ∀ (s : List Char) (c : Char), (possSubFuel fuel s).getLast? = some c →
      s.getLast? = some c ∨ isWordCh c = true := by
  induction fuel with
  | zero => intro s c h; exact Or.inl h
  | succ fuel ih =>
    intro s c h
    cases s with
    | nil => rw [possSubFuel_nil] at h; simp at h
    | cons c0 cs =>
      unfold possSubFuel at h
      by_cases hcond : 2 ≤ ((c0 :: cs).takeWhile isWordCh).length ∧
          ((c0 :: cs).takeWhile isWordCh).getLast? = some 's' ∧
          1 ≤ (((c0 :: cs).dropWhile isWordCh).takeWhile pyIsWs).length ∧
          1 ≤ ((((c0 :: cs).dropWhile isWordCh).dropWhile pyIsWs).takeWhile
                isWordCh).length
      · rw [if_pos hcond] at h
        revert h
        generalize hA : ((c0 :: cs).takeWhile isWordCh).dropLast = A
        generalize hT : (((c0 :: cs).dropWhile isWordCh).dropWhile
          pyIsWs).takeWhile isWordCh = T
        generalize hD : (((c0 :: cs).dropWhile isWordCh).dropWhile
          pyIsWs).dropWhile isWordCh = D
        intro h
        have hTne : T ≠ [] := by
          intro he
          have h4 := hcond.2.2.2
          rw [hT, he] at h4
          simp at h4
        have hTmem : ∀ x ∈ T, isWordCh x = true := by
          intro x hx
          rw [← hT] at hx
          exact List.mem_takeWhile_imp hx
        by_cases hrec : possSubFuel fuel D = []
        · rw [hrec, List.append_nil] at h
          rw [getLast?_append_right hTne] at h
          exact Or.inr (hTmem c (List.mem_of_getLast?_eq_some h))
        · rw [getLast?_append_right hrec] at h
          rcases ih _ c h with hl | hw
          · left
            have hsuf : D <:+ (c0 :: cs) := by
              rw [← hD]
              exact (List.dropWhile_suffix _).trans
                ((List.dropWhile_suffix _).trans (List.dropWhile_suffix _))
            have hne : D ≠ [] := by
              intro he
              rw [he, possSubFuel_nil] at hrec
              exact hrec rfl
            rw [← getLast?_of_suffix hsuf hne]
            exact hl
          · exact Or.inr hw
      · rw [if_neg hcond] at h
        by_cases hrec : possSubFuel fuel cs = []
        · have hcs : cs = [] := by
            by_contra hcs
            exact possSubFuel_ne_nil fuel cs hcs hrec
          subst hcs
          rw [possSubFuel_nil] at h
          simp only [List.getLast?_singleton, Option.some.injEq] at h
          subst h
          exact Or.inl rfl
        · rw [getLast?_cons_of_ne_nil hrec] at h
          rcases ih cs c h with hl | hw
          · left
            have hcs : cs ≠ [] := by
              intro he; rw [he, possSubFuel_nil] at hrec; exact hrec rfl
            rw [getLast?_cons_of_ne_nil hcs]
            exact hl
          · exact Or.inr hw

/-- Characters of a `possSubFuel` output come from the input or from the
inserted `'s ` text. -/
theorem possSubFuel_mem (fuel : Nat) :
    ∀ (s : List Char) (c : Char), c ∈ possSubFuel fuel s →
      c ∈ s ∨ c = apos ∨ c = 's' ∨ c = ' ' := by
  induction fuel with
  | zero => intro s c h; exact Or.inl h
  | succ fuel ih =>
    intro s c h
    cases s with
    | nil => rw [possSubFuel_nil] at h; simp at h
    | cons c0 cs =>
      unfold possSubFuel at h
      by_cases hcond : 2 ≤ ((c0 :: cs).takeWhile isWordCh).length ∧
          ((c0 :: cs).takeWhile isWordCh).getLast? = some 's' ∧
          1 ≤ (((c0 :: cs).dropWhile isWordCh).takeWhile pyIsWs).length ∧
          1 ≤ ((((c0 :: cs).dropWhile isWordCh).dropWhile pyIsWs).takeWhile
                isWordCh).length
      · rw [if_pos hcond] at h
        simp only [List.mem_append, List.mem_cons, List.not_mem_nil, or_false] at h
        rcases h with ((hA | hB) | hT) | hR
        · exact Or.inl (((List.takeWhile_sublist _).trans
            (List.Sublist.refl _)).mem
            ((List.dropLast_sublist _).mem hA))
        · rcases hB with rfl | rfl | rfl
          · exact Or.inr (Or.inl rfl)
          · exact Or.inr (Or.inr (Or.inl rfl))
          · exact Or.inr (Or.inr (Or.inr rfl))
        · refine Or.inl ?_
          have h1 := (List.takeWhile_sublist (l :=
            ((c0 :: cs).dropWhile isWordCh).dropWhile pyIsWs) isWordCh).mem hT
          have h2 := (List.dropWhile_sublist (l :=
            (c0 :: cs).dropWhile isWordCh) pyIsWs).mem h1
          exact (List.dropWhile_sublist (l := c0 :: cs) isWordCh).mem h2
        · rcases ih _ c hR with hl | hr
          · refine Or.inl ?_
            have h2 := (List.dropWhile_sublist (l :=
              ((c0 :: cs).dropWhile isWordCh).dropWhile pyIsWs) isWordCh).mem hl
            have h3 := (List.dropWhile_sublist (l :=
              (c0 :: cs).dropWhile isWordCh) pyIsWs).mem h2
            exact (List.dropWhile_sublist (l := c0 :: cs) isWordCh).mem h3
          · exact Or.inr hr
      · rw [if_neg hcond] at h
        rcases List.mem_cons.mp h with rfl | h'
        · exact Or.inl (by simp)
        · rcases ih cs c h' with hl | hr
          · exact Or.inl (by simp [hl])
          · exact Or.inr hr

/-- `wordSubFuel` maps `[]` to `[]` at any fuel. -/
theorem wordSubFuel_nil (alts : List (List Char)) (repl : List Char)
    (fuel : Nat) (b : Bool) : wordSubFuel alts repl fuel b [] = [] := by
  cases fuel <;> rfl

/-- With a non-empty replacement, `wordSubFuel` maps non-empty input to
non-empty output. -/
theorem wordSubFuel_ne_nil (alts : List (List Char)) (repl : List Char)
    (hrepl : repl ≠ []) (fuel : Nat) (b : Bool) (s : List Char) (hs : s ≠ []) :
    wordSubFuel alts repl fuel b s ≠ [] := by
  cases fuel with
  | zero => simpa [wordSubFuel] using hs
  | succ fuel =>
    cases s with
    | nil => exact absurd rfl hs
    | cons c cs =>
      unfold wordSubFuel
      by_cases h : ¬ b = true ∧ isWordCh c = true
      · rw [if_pos h]
        cases hf : List.find? (fun a =>
            a.isPrefixOf (c :: cs) && wordBoundaryAfter a (c :: cs)) alts with
        | none => simp
        | some a => simp [hrepl]
      · rw [if_neg h]
        simp

/-- The head of a `wordSubFuel` output is the input's head or the
replacement's head. -/
theorem wordSubFuel_head? (alts : List (List Char)) (repl : List Char)
    (hrepl : repl ≠ []) (fuel : Nat) (b : Bool) (s : List Char) :
    (wordSubFuel alts repl fuel b s).head? = s.head? ∨
      (wordSubFuel alts repl fuel b s).head? = repl.head? := by
  cases fuel with
  | zero => exact Or.inl rfl
  | succ fuel =>
    cases s with
    | nil => exact Or.inl rfl
    | cons c cs =>
      unfold wordSubFuel
      by_cases h : ¬ b = true ∧ isWordCh c = true
      · rw [if_pos h]
        cases hf : List.find? (fun a =>
            a.isPrefixOf (c :: cs) && wordBoundaryAfter a (c :: cs)) alts with
        | none => exact Or.inl rfl
        | some a =>
          right
          rw [List.head?_append]
          cases hr : repl.head? with
          | none => exact absurd (by simpa using hr) hrepl
          | some d => simp
      · rw [if_neg h]
        exact Or.inl rfl

/-- The last character of a `wordSubFuel` output is the input's last character
or a character of the replacement. -/
theorem wordSubFuel_getLast? (alts : List (List Char)) (repl : List Char)
    (hrepl : repl ≠ []) (fuel : Nat) :
    ∀ (b : Bool) (s : List Char) (c : Char),
      (wordSubFuel alts repl fuel b s).getLast? = some c →
      s.getLast? = some c ∨ c ∈ repl := by
  induction fuel with
  | zero => intro b s c h; exact Or.inl h
  | succ fuel ih =>
    intro b s c h
    cases s with
    | nil => rw [wordSubFuel_nil] at h; simp at h
    | cons c0 cs =>
      unfold wordSubFuel at h
      by_cases hcond : ¬ b = true ∧ isWordCh c0 = true
      · rw [if_pos hcond] at h
        cases hf : List.find? (fun a =>
            a.isPrefixOf (c0 :: cs) && wordBoundaryAfter a (c0 :: cs)) alts with
        | none =>
          rw [hf] at h
          dsimp only at h
          by_cases hrec : wordSubFuel alts repl fuel (isWordCh c0) cs = []
          · have hcs : cs = [] := by
              by_contra hcs
              exact wordSubFuel_ne_nil alts repl hrepl fuel _ cs hcs hrec
            subst hcs
            rw [wordSubFuel_nil] at h
            simp only [List.getLast?_singleton, Option.some.injEq] at h
            subst h
            exact Or.inl rfl
          · rw [getLast?_cons_of_ne_nil hrec] at h
            rcases ih _ cs c h with hl | hr
            · left
              have hcs : cs ≠ [] := by
                intro he; rw [he, wordSubFuel_nil] at hrec; exact hrec rfl
              rw [getLast?_cons_of_ne_nil hcs]
              exact hl
            · exact Or.inr hr
        | some a =>
          rw [hf] at h
          dsimp only at h
          by_cases hrec : wordSubFuel alts repl fuel true ((c0 :: cs).drop a.length) = []
          · rw [hrec, List.append_nil] at h
            exact Or.inr (List.mem_of_getLast?_eq_some h)
          · rw [getLast?_append_right hrec] at h
            rcases ih _ _ c h with hl | hr
            · left
              have hdne : (c0 :: cs).drop a.length ≠ [] := by
                intro he
                rw [he, wordSubFuel_nil] at hrec
                exact hrec rfl
              rw [← getLast?_of_suffix (List.drop_suffix _ _) hdne]
              exact hl
            · exact Or.inr hr
      · rw [if_neg hcond] at h
        by_cases hrec : wordSubFuel alts repl fuel (isWordCh c0) cs = []
        · have hcs : cs = [] := by
            by_contra hcs
            exact wordSubFuel_ne_nil alts repl hrepl fuel _ cs hcs hrec
          subst hcs
          rw [wordSubFuel_nil] at h
          simp only [List.getLast?_singleton, Option.some.injEq] at h
          subst h
          exact Or.inl rfl
        · rw [getLast?_cons_of_ne_nil hrec] at h
          rcases ih _ cs c h with hl | hr
          · left
            have hcs : cs ≠ [] := by
              intro he; rw [he, wordSubFuel_nil] at hrec; exact hrec rfl
            rw [getLast?_cons_of_ne_nil hcs]
            exact hl
          · exact Or.inr hr

/-- Characters of a `wordSubFuel` output come from the input or the
replacement. -/
theorem wordSubFuel_mem (alts : List (List Char)) (repl : List Char)
    (fuel : Nat) :
    ∀ (b : Bool) (s : List Char) (c : Char), c ∈ wordSubFuel alts repl fuel b s →
      c ∈ s ∨ c ∈ repl := by
  induction fuel with
  | zero => intro b s c h; exact Or.inl h
  | succ fuel ih =>
    intro b s c h
    cases s with
    | nil => rw [wordSubFuel_nil] at h; simp at h
    | cons c0 cs =>
      unfold wordSubFuel at h
      by_cases hcond : ¬ b = true ∧ isWordCh c0 = true
      · rw [if_pos hcond] at h
        cases hf : List.find? (fun a =>
            a.isPrefixOf (c0 :: cs) && wordBoundaryAfter a (c0 :: cs)) alts with
        | none =>
          rw [hf] at h
          dsimp only at h
          rcases List.mem_cons.mp h with rfl | h'
          · exact Or.inl (by simp)
          · rcases ih _ cs c h' with hl | hr
            · exact Or.inl (by simp [hl])
            · exact Or.inr hr
        | some a =>
          rw [hf] at h
          dsimp only at h
          rcases List.mem_append.mp h with hl | hr
          · exact Or.inr hl
          · rcases ih _ _ c hr with hl' | hr'
            · exact Or.inl ((List.drop_sublist _ _).mem hl')
            · exact Or.inr hr'
      · rw [if_neg hcond] at h
        rcases List.mem_cons.mp h with rfl | h'
        · exact Or.inl (by simp)
        · rcases ih _ cs c h' with hl | hr
          · exact Or.inl (by simp [hl])
          · exact Or.inr hr

/-- Non-whitespace heads are preserved by a word substitution with a
non-empty, whitespace-free replacement. -/
theorem wordSub_head_ok (alts : List (List Char)) (repl : List Char)
    (hrepl : repl ≠ []) (hreplws : ∀ x ∈ repl, pyIsWs x = false)
    (s : List Char) (hs : ∀ c, s.head? = some c → pyIsWs c = false) :
    ∀ c, (wordSub alts repl s).head? = some c → pyIsWs c = false := by
  intro c hc
  rcases wordSubFuel_head? alts repl hrepl s.length false s with he | he
  · rw [wordSub] at hc
    rw [he] at hc
    exact hs c hc
  · rw [wordSub] at hc
    rw [he] at hc
    cases repl with
    | nil => exact absurd rfl hrepl
    | cons r rs =>
      simp only [List.head?_cons, Option.some.injEq] at hc
      subst hc
      exact hreplws r (by simp)

/-- Non-whitespace last characters are preserved likewise. -/
theorem wordSub_getLast_ok (alts : List (List Char)) (repl : List Char)
    (hrepl : repl ≠ []) (hreplws : ∀ x ∈ repl, pyIsWs x = false)
    (s : List Char) (hs : ∀ c, s.getLast? = some c → pyIsWs c = false) :
    ∀ c, (wordSub alts repl s).getLast? = some c → pyIsWs c = false := by
  intro c hc
  rcases wordSubFuel_getLast? alts repl hrepl s.length false s c hc with hl | hr
  · exact hs c hl
  · exact hreplws c hr

/-- Non-whitespace heads are preserved by the possessive rewrite. -/
theorem possSub_head_ok (s : List Char)
    (hs : ∀ c, s.head? = some c → pyIsWs c = false) :
    ∀ c, (possSub s).head? = some c → pyIsWs c = false := by
  intro c hc
  rw [possSub, possSubFuel_head?] at hc
  exact hs c hc

/-- Non-whitespace last characters are preserved by the possessive rewrite. -/
theorem possSub_getLast_ok (s : List Char)
    (hs : ∀ c, s.getLast? = some c → pyIsWs c = false) :
    ∀ c, (possSub s).getLast? = some c → pyIsWs c = false := by
  intro c hc
  rcases possSubFuel_getLast? s.length s c hc with hl | hw
  · exact hs c hl
  · exact isWordCh_not_ws hw

/-- Every normalized query is `toLower`-fixed, character by character. -/
theorem normalizeQuery_allLower (q : List Char) :
    ∀ c ∈ normalizeQuery q, Char.toLower c = c := by
  intro c hc
  unfold normalizeQuery synContact synIncome synProps wordSub at hc
  rcases wordSubFuel_mem _ _ _ _ _ c hc with hc | hr
  · rcases wordSubFuel_mem _ _ _ _ _ c hc with hc | hr
    · rcases wordSubFuel_mem _ _ _ _ _ c hc with hc | hr
      · rw [possSub] at hc
        rcases possSubFuel_mem _ _ c hc with hc | hr
        · exact allLower_pyLower q c
            (mem_of_mem_pyStrip (mem_of_mem_removeFiller _ _ hc))
        · rcases hr with rfl | rfl | rfl <;> decide
      · exact (by decide : ∀ x ∈ "properties".toList, Char.toLower x = x) c hr
    · exact (by decide : ∀ x ∈ "income".toList, Char.toLower x = x) c hr
  · exact (by decide : ∀ x ∈ "contact".toList, Char.toLower x = x) c hr

/-- A normalized query has no leading whitespace. -/
theorem normalizeQuery_head_ok (q : List Char) :
    ∀ c, (normalizeQuery q).head? = some c → pyIsWs c = false := by
  unfold normalizeQuery synContact synIncome synProps
  refine wordSub_head_ok _ _ (by decide) (by decide) _ ?_
  refine wordSub_head_ok _ _ (by decide) (by decide) _ ?_
  refine wordSub_head_ok _ _ (by decide) (by decide) _ ?_
  refine possSub_head_ok _ ?_
  exact removeFiller_head? _ _ (pyStrip_head? _)

/-- A normalized query has no trailing whitespace. -/
theorem normalizeQuery_getLast_ok (q : List Char) :
    ∀ c, (normalizeQuery q).getLast? = some c → pyIsWs c = false := by
  unfold normalizeQuery synContact synIncome synProps
  refine wordSub_getLast_ok _ _ (by decide) (by decide) _ ?_
  refine wordSub_getLast_ok _ _ (by decide) (by decide) _ ?_
  refine wordSub_getLast_ok _ _ (by decide) (by decide) _ ?_
  refine possSub_getLast_ok _ ?_
  exact removeFiller_getLast? _ _ (pyStrip_getLast? _)

/-- C3 (amended): the normalizer is idempotent exactly on those queries whose
normalized form is left unchanged by the filler stripper, the possessive
rewrite and each synonym rewrite; the lowercase and trim stages never change a
normalized form (proved outright).  The original unconditional claim is
refuted by `c3_counterexample`. -/
theorem c3_normalize_idempotent (q : List Char)
    (hfill : removeFiller fillerWords (normalizeQuery q) = normalizeQuery q)
    (hposs : possSub (normalizeQuery q) = normalizeQuery q)
    (hprops : synProps (normalizeQuery q) = normalizeQuery q)
    (hincome : synIncome (normalizeQuery q) = normalizeQuery q)
    (hcontact : synContact (normalizeQuery q) = normalizeQuery q) :
    normalizeQuery (normalizeQuery q) = normalizeQuery q := by
  conv_lhs => rw [normalizeQuery]
  rw [pyLower_eq_self (normalizeQuery_allLower q)]
  rw [pyStrip_eq_self (normalizeQuery_head_ok q) (normalizeQuery_getLast_ok q)]
  rw [hfill, hposs, hprops, hincome, hcontact]

/-- Witness for `c3_normalize_idempotent` on a concrete query (whose
normalized form `michael contact contact` is a fixed point of every stage). -/
theorem c3_normalize_idempotent_witness :
    normalizeQuery (normalizeQuery "michael contact info".toList) =
      normalizeQuery "michael contact info".toList :=
  c3_normalize_idempotent _ (by decide) (by decide) (by decide) (by decide)
    (by decide)

/-- C3 counterexample: `normalize` is NOT idempotent.  `"property income"`
normalizes to `"properties income"` (synonym canonicalization), which the
possessive rewrite then mangles to `propertie's income` on a second pass. -/
theorem c3_counterexample :
    normalizeQuery (normalizeQuery "property income".toList) ≠
      normalizeQuery "property income".toList := by
  decide

/-! ## C6 / C7 / C8 — the entity resolver (`retrieval/vector.py`)

Database rows are association lists from column name to (string) value;
Python truthiness of a value is non-emptiness.  `EntityResolver.search_entity`
is embedded with the four strategies' match lists abstracted as an oracle (the
strategies only interact with the rest of the function through the lists they
return; a strategy that raises contributes nothing, i.e. the empty list).
Python's `sorted(..., key=confidence, reverse=True)` is a stable descending
sort; stable sorting is extensionally unique, so it is embedded as insertion
sort with the total preorder `b.confidence ≤ a.confidence`. -/

/-- A database row: column name → string value, first occurrence wins. -/
def rowGet (row : List (List Char × List Char)) (k : List Char) :
    Option (List Char) :=
  (row.find? (fun kv => kv.1 = k)).map (fun kv => kv.2)

/-- `_calculate_fuzzy_confidence`: walk the searched fields, keeping the
running maximum of the per-field tier (0.95 exact, 0.8 substring either way,
0.6 when some whitespace token of the query occurs in the value), skipping
absent or falsy fields. -/
def calcFuzzyConfidence (query : List Char)
    (row : List (List Char × List Char)) (fields : List (List Char)) : ℚ :=
  fields.foldl
    (fun mc f =>
      match rowGet row f with
      | some v =>
        if v ≠ [] then
          if pyLower query = pyLower v then max mc 0.95
          else if isSub (pyLower query) (pyLower v) ||
              isSub (pyLower v) (pyLower query) then max mc 0.8
          else if (splitWs (pyLower query)).any
              (fun w => isSub w (pyLower v)) then max mc 0.6
          else mc
        else mc
      | none => mc)
    0

/-- `_calculate_text_match_confidence`: `max(0.4, fuzzy * 0.7)`. -/
def calcTextMatchConfidence (query : List Char)
    (row : List (List Char × List Char)) (fields : List (List Char)) : ℚ :=
  max 0.4 (calcFuzzyConfidence query row fields * 0.7)

/-- The token loop of `_full_text_search` for one table: a `(table, token)`
search is issued for each token with `len(token) > 2`. -/
def fullTextQueriesAux (t : List Char) : List (List Char) →
    List (List Char × List Char)
  | [] => []
  | tok :: rest =>
    if 2 < tok.length then (t, tok) :: fullTextQueriesAux t rest
    else fullTextQueriesAux t rest

/-- The `(table, token)` pairs `_full_text_search` hands to
`db_client.search`, in issue order: tables outer, tokens of
`entity_name.lower().split()` inner. -/
def fullTextQueries (entityName : List Char) : List (List Char) →
    List (List Char × List Char)
  | [] => []
  | t :: ts =>
    fullTextQueriesAux t (splitWs (pyLower entityName)) ++
      fullTextQueries entityName ts

/-- The per-field score exactly as the claim words it, with "share a token"
read literally: some whitespace token of `q` equals some whitespace token of
`v`. -/
def claimTier (qL fv : List Char) : ℚ :=
  if qL = fv then 0.95
  else if isSub qL fv || isSub fv qL then 0.8
  else if (splitWs qL).any (fun w => (splitWs fv).any (fun u => u = w)) then 0.6
  else 0

/-- The fuzzy confidence as the C8 claim describes it: the maximum of the
per-field `claimTier` scores over the searched (present, non-empty) fields. -/
def fuzzySpecClaim (query : List Char)
    (row : List (List Char × List Char)) (fields : List (List Char)) : ℚ :=
  fields.foldl
    (fun mc f =>
      match rowGet row f with
      | some v =>
        if v ≠ [] then max mc (claimTier (pyLower query) (pyLower v)) else mc
      | none => mc)
    0

/-- The per-field score with the token tier as the code implements it: some
token of `q` occurs as a SUBSTRING of `v`. -/
def amendedTier (qL fv : List Char) : ℚ :=
  if qL = fv then 0.95
  else if isSub qL fv || isSub fv qL then 0.8
  else if (splitWs qL).any (fun w => isSub w fv) then 0.6
  else 0

/-- The amended C8 reading: maximum of `amendedTier` over searched fields. -/
def fuzzySpecAmended (query : List Char)
    (row : List (List Char × List Char)) (fields : List (List Char)) : ℚ :=
  fields.foldl
    (fun mc f =>
      match rowGet row f with
      | some v =>
        if v ≠ [] then max mc (amendedTier (pyLower query) (pyLower v)) else mc
      | none => mc)
    0

/-- One field of the code's if-chain agrees with `max`-of-tier on non-negative
accumulators. -/
theorem fuzzyStep_eq (query v : List Char) (mc : ℚ) (h : 0 ≤ mc) :
    (if pyLower query = pyLower v then max mc 0.95
     else if isSub (pyLower query) (pyLower v) ||
         isSub (pyLower v) (pyLower query) then max mc 0.8
     else if (splitWs (pyLower query)).any
         (fun w => isSub w (pyLower v)) then max mc 0.6
     else mc) = max mc (amendedTier (pyLower query) (pyLower v)) := by
  unfold amendedTier
  by_cases h1 : pyLower query = pyLower v
  · rw [if_pos h1, if_pos h1]
  · rw [if_neg h1, if_neg h1]
    by_cases h2 : (isSub (pyLower query) (pyLower v) ||
        isSub (pyLower v) (pyLower query)) = true
    · rw [if_pos h2, if_pos h2]
    · rw [if_neg h2, if_neg h2]
      by_cases h3 : ((splitWs (pyLower query)).any
          (fun w => isSub w (pyLower v))) = true
      · rw [if_pos h3, if_pos h3]
      · rw [if_neg h3, if_neg h3, max_eq_left h]

/-- The code's accumulator stays non-negative. -/
theorem fuzzyStep_nonneg (query v : List Char) (mc : ℚ) (h : 0 ≤ mc) :
    0 ≤ (if pyLower query = pyLower v then max mc 0.95
     else if isSub (pyLower query) (pyLower v) ||
         isSub (pyLower v) (pyLower query) then max mc 0.8
     else if (splitWs (pyLower query)).any
         (fun w => isSub w (pyLower v)) then max mc 0.6
     else mc) := by
  split_ifs <;> simp [le_max_iff, h]

/-- C8 (amended), generalized over the accumulator. -/
theorem calcFuzzy_foldl_eq (query : List Char)
    (row : List (List Char × List Char)) :
    ∀ (fields : List (List Char)) (mc : ℚ), 0 ≤ mc →
      fields.foldl
        (fun mc f =>
          match rowGet row f with
          | some v =>
            if v ≠ [] then
              if pyLower query = pyLower v then max mc 0.95
              else if isSub (pyLower query) (pyLower v) ||
                  isSub (pyLower v) (pyLower query) then max mc 0.8
              else if (splitWs (pyLower query)).any
                  (fun w => isSub w (pyLower v)) then max mc 0.6
              else mc
            else mc
          | none => mc) mc =
      fields.foldl
        (fun mc f =>
          match rowGet row f with
          | some v =>
            if v ≠ [] then max mc (amendedTier (pyLower query) (pyLower v))
            else mc
          | none => mc) mc := by
  intro fields
  induction fields with
  | nil => intro mc _; rfl
  | cons f rest ih =>
    intro mc h
    simp only [List.foldl_cons]
    cases hv : rowGet row f with
    | none => exact ih mc h
    | some v =>
      dsimp only
      by_cases hv' : v ≠ []
      · simp only [if_pos hv']
        rw [fuzzyStep_eq query v mc h]
        exact ih _ (le_trans h (le_max_left _ _))
      · simp only [if_neg hv']
        exact ih mc h

/-- C8 (amended): the fuzzy confidence is the maximum over the searched
fields of the per-field tier score 0.95 / 0.8 / 0.6 / 0, where the 0.6 tier
fires when some whitespace token of the query occurs as a substring of the
field value. -/
theorem c8_fuzzy_scoring (query : List Char)
    (row : List (List Char × List Char)) (fields : List (List Char)) :
    calcFuzzyConfidence query row fields = fuzzySpecAmended query row fields := by
  unfold calcFuzzyConfidence fuzzySpecAmended
  exact calcFuzzy_foldl_eq query row fields 0 le_rfl

/-- C8 counterexample: query `al b` against value `tall`.  They share no
token (`{al, b}` vs `{tall}`), neither is a substring of the other and they
are not equal, so the claim's scoring yields 0 — but the code scores 0.6
because the token `al` occurs INSIDE `tall`. -/
theorem c8_counterexample :
    calcFuzzyConfidence "al b".toList [("name".toList, "tall".toList)]
        ["name".toList] = 3/5 ∧
      fuzzySpecClaim "al b".toList [("name".toList, "tall".toList)]
        ["name".toList] = 0 ∧
      calcFuzzyConfidence "al b".toList [("name".toList, "tall".toList)]
          ["name".toList] ≠
        fuzzySpecClaim "al b".toList [("name".toList, "tall".toList)]
          ["name".toList] := by
  refine ⟨?_, ?_, ?_⟩ <;> with_unfolding_all decide

/-- C6 (amended): `_full_text_search` issues a search exactly for each
`(table, token)` with `len(token) > 2` (tokens of the lowercased entity
name), and the text-match confidence is `max(0.4, 0.7 × fuzzy)` — a FLOOR of
0.4, not a cap at `0.7 × fuzzy` (in particular it is 0.4, not 0, when the
fuzzy score is 0). -/
theorem c6_full_text_strategy (entityName : List Char)
    (tables : List (List Char)) (query : List Char)
    (row : List (List Char × List Char)) (fields : List (List Char)) :
    fullTextQueries entityName tables =
      tables.flatMap (fun t =>
        ((splitWs (pyLower entityName)).filter
          (fun tok => 2 < tok.length)).map (fun tok => (t, tok))) ∧
      calcTextMatchConfidence query row fields =
        max (2/5) ((7/10) * calcFuzzyConfidence query row fields) ∧
      (2/5 : ℚ) ≤ calcTextMatchConfidence query row fields := by
  refine ⟨?_, ?_, ?_⟩
  · induction tables with
    | nil => rfl
    | cons t ts ih =>
      simp only [fullTextQueries, List.flatMap_cons, ih]
      congr 1
      induction splitWs (pyLower entityName) with
      | nil => rfl
      | cons tok toks ih2 =>
        by_cases h : 2 < tok.length
        · simp [fullTextQueriesAux, if_pos h, List.filter_cons, h, ih2]
        · simp [fullTextQueriesAux, if_neg h, List.filter_cons, h, ih2]
  · unfold calcTextMatchConfidence
    rw [mul_comm]
    norm_num
  · unfold calcTextMatchConfidence
    refine le_trans (by norm_num) (le_max_left _ _)

/-- C6 counterexample: with a row that yields fuzzy score 0, the claim
demands text confidence ≤ 0.7 × 0 = 0, but the code floors it at 0.4. -/
theorem c6_counterexample :
    calcFuzzyConfidence "x".toList [("name".toList, "zzz".toList)]
        ["name".toList] = 0 ∧
      calcTextMatchConfidence "x".toList [("name".toList, "zzz".toList)]
        ["name".toList] = 2/5 ∧
      ¬ (calcTextMatchConfidence "x".toList [("name".toList, "zzz".toList)]
          ["name".toList] ≤
        (7/10) * calcFuzzyConfidence "x".toList
          [("name".toList, "zzz".toList)] ["name".toList]) := by
  refine ⟨?_, ?_, ?_⟩ <;> with_unfolding_all decide

/-- The strategy loop of `search_entity`: each strategy's matches are filtered
by `confidence >= min_confidence`; after a strategy whose surviving matches
reach a maximum confidence > 0.8 the loop breaks. -/
def gatherStrategies (minConf : ℚ) : List (List EMatch) → List EMatch
  | [] => []
  | ms :: rest =>
    match ms.filter (fun m => minConf ≤ m.confidence) with
    | [] => gatherStrategies minConf rest
    | qm :: qms =>
      if 4/5 < qms.foldl (fun a m => max a m.confidence) qm.confidence then
        qm :: qms
      else (qm :: qms) ++ gatherStrategies minConf rest

/-- `_deduplicate_matches` with its `seen` set of `f"{table}:{id}"` keys. -/
def dedupKey (m : EMatch) : List Char := m.table ++ ':' :: m.id

/-- The dedup walk (`seen` modelled as the list of keys inserted so far). -/
def dedupAux (seen : List (List Char)) : List EMatch → List EMatch
  | [] => []
  | m :: rest =>
    if seen.contains (dedupKey m) then dedupAux seen rest
    else m :: dedupAux (dedupKey m :: seen) rest

/-- `_deduplicate_matches`. -/
def dedupMatches (ms : List EMatch) : List EMatch := dedupAux [] ms

/-- The descending-by-confidence order used by
`sorted(..., key=confidence, reverse=True)`. -/
def confGe (a b : EMatch) : Prop := b.confidence ≤ a.confidence

instance : DecidableRel confGe := fun a b => by
  unfold confGe; infer_instance

/-- Python `l[:k]` for an `int` bound: non-negative `k` truncates to `k`
elements, negative `k` drops `|k|` elements from the end (clamped at 0). -/
def pySliceTo (l : List α) (k : ℤ) : List α :=
  if 0 ≤ k then l.take k.toNat else l.take ((l.length : ℤ) + k).toNat

/-- `EntityResolver.search_entity` with the four strategies' returned match
lists abstracted as `results` (in strategy order): gather with early break,
deduplicate, stable-sort descending by confidence, truncate to
`max_results`. -/
def searchEntity (results : List (List EMatch)) (maxResults : ℤ)
    (minConf : ℚ) : List EMatch :=
  pySliceTo (List.insertionSort confGe (dedupMatches (gatherStrategies minConf results)))
    maxResults

/-- The dedup walk emits no key already seen, and no key twice. -/
theorem dedupAux_nodup : ∀ (ms : List EMatch) (seen : List (List Char)),
    ((dedupAux seen ms).map dedupKey).Nodup ∧
      ∀ k ∈ (dedupAux seen ms).map dedupKey, ¬ seen.contains k = true := by
  intro ms
  induction ms with
  | nil => intro seen; exact ⟨List.nodup_nil, by simp [dedupAux]⟩
  | cons m rest ih =>
    intro seen
    unfold dedupAux
    by_cases h : seen.contains (dedupKey m) = true
    · rw [if_pos h]
      exact ih seen
    · rw [if_neg h]
      rcases ih (dedupKey m :: seen) with ⟨hnd, hnotin⟩
      constructor
      · simp only [List.map_cons, List.nodup_cons]
        refine ⟨?_, hnd⟩
        intro hmem
        have := hnotin _ hmem
        simp at this
      · intro k hk
        simp only [List.map_cons, List.mem_cons] at hk
        rcases hk with rfl | hk
        · exact h
        · intro hc
          refine hnotin k hk (by
            simp only [List.contains_cons, Bool.or_eq_true]
            exact Or.inr hc)

instance : IsTotal EMatch confGe :=
  ⟨fun a b => le_total b.confidence a.confidence⟩

instance : IsTrans EMatch confGe :=
  ⟨fun _ _ _ h1 h2 => le_trans h2 h1⟩

/-- C7 (amended): for a non-negative `max_results`, `search_entity` returns a
list sorted by non-increasing confidence, without duplicate `(table, id)`
pairs, of length at most `max_results`.  (For a negative `max_results` Python
slicing instead drops elements from the end — see `c7_counterexample`.) -/
theorem c7_search_entity (results : List (List EMatch)) (maxResults : ℤ)
    (minConf : ℚ) (hmr : 0 ≤ maxResults) :
    List.Sorted confGe (searchEntity results maxResults minConf) ∧
      ((searchEntity results maxResults minConf).map
        (fun m => (m.table, m.id))).Nodup ∧
      ((searchEntity results maxResults minConf).length : ℤ) ≤ maxResults := by
  unfold searchEntity pySliceTo
  rw [if_pos hmr]
  have hsorted : List.Sorted confGe
      (List.insertionSort confGe
        (dedupMatches (gatherStrategies minConf results))) :=
    List.sorted_insertionSort confGe _
  have hkeys : ((dedupMatches (gatherStrategies minConf results)).map
      dedupKey).Nodup := (dedupAux_nodup _ []).1
  have hperm : List.Perm
      (List.insertionSort confGe
        (dedupMatches (gatherStrategies minConf results)))
      (dedupMatches (gatherStrategies minConf results)) :=
    List.perm_insertionSort confGe _
  have hkeys2 : ((List.insertionSort confGe
      (dedupMatches (gatherStrategies minConf results))).map dedupKey).Nodup :=
    ((hperm.map dedupKey).nodup_iff).mpr hkeys
  refine ⟨?_, ?_, ?_⟩
  · exact List.Pairwise.sublist (List.take_sublist _ _) hsorted
  · have hsub : ((List.insertionSort confGe
        (dedupMatches (gatherStrategies minConf results))).take
          maxResults.toNat).map dedupKey |>.Sublist
        ((List.insertionSort confGe
          (dedupMatches (gatherStrategies minConf results))).map dedupKey) :=
      (List.take_sublist _ _).map dedupKey
    have hkeys3 := hkeys2.sublist hsub
    have hcomp : ∀ (X : List EMatch), X.map dedupKey =
        (X.map (fun m => (m.table, m.id))).map
          (fun p => p.1 ++ ':' :: p.2) := by
      intro X
      rw [List.map_map]
      rfl
    rw [hcomp] at hkeys3
    exact hkeys3.of_map _
  · have : ((List.insertionSort confGe
        (dedupMatches (gatherStrategies minConf results))).take
          maxResults.toNat).length ≤ maxResults.toNat := by
      rw [List.length_take]
      exact min_le_left _ _
    omega

/-- Witness for `c7_search_entity`: two strategies, one duplicate pair, cut
to 2 results. -/
theorem c7_search_entity_witness :
    List.Sorted confGe (searchEntity
        [[EMatch.mk "1".toList "a".toList "users".toList (19/20)],
         [EMatch.mk "1".toList "a".toList "users".toList (3/5),
          EMatch.mk "2".toList "b".toList "users".toList (7/10)]] 2 (1/2)) ∧
      ((searchEntity
        [[EMatch.mk "1".toList "a".toList "users".toList (19/20)],
         [EMatch.mk "1".toList "a".toList "users".toList (3/5),
          EMatch.mk "2".toList "b".toList "users".toList (7/10)]] 2 (1/2)).map
        (fun m => (m.table, m.id))).Nodup ∧
      ((searchEntity
        [[EMatch.mk "1".toList "a".toList "users".toList (19/20)],
         [EMatch.mk "1".toList "a".toList "users".toList (3/5),
          EMatch.mk "2".toList "b".toList "users".toList (7/10)]] 2
        (1/2)).length : ℤ) ≤ 2 :=
  c7_search_entity _ 2 (1/2) (by decide)

/-- C7 counterexample: `search_entity` with `max_results = -1` (Python `int`)
returns `sorted(...)[:-1]`, which can violate "length at most
`max_results`" — here the result has length 0 > -1.  (With two surviving
matches it would return one of them, not none.) -/
theorem c7_counterexample :
    ¬ (((searchEntity [[EMatch.mk "1".toList "a".toList "users".toList
        (19/20)]] (-1) (1/2)).length : ℤ) ≤ -1) := by
  with_unfolding_all decide

/-! ## C4 — the request-cache key (`routes.py _generate_request_cache_key`)

`md5(json.dumps({"query": query.lower().strip(), "user_id": ..,
"user_role": ..}, sort_keys=True).encode()).hexdigest()`.  Note the key uses
`query.lower().strip()`, NOT the full `_normalize_query`.  The MD5 compression
function is implemented over `ℕ` with explicit `% 2^32`. -/

/-- Lowercase hex digit. -/
def hexDigit (n : ℕ) : Char :=
  if n < 10 then Char.ofNat (48 + n) else Char.ofNat (87 + n)

/-- Four lowercase hex digits, most significant first. -/
def hex4 (n : ℕ) : List Char :=
  [hexDigit (n / 4096 % 16), hexDigit (n / 256 % 16),
   hexDigit (n / 16 % 16), hexDigit (n % 16)]

/-- `json.dumps` escaping of one character (`ensure_ascii=True` default): the
two-character escapes, `\u00xx` for other control characters, ASCII verbatim,
`\uxxxx` for the BMP and surrogate pairs beyond it. -/
def jsonEscapeChar (c : Char) : List Char :=
  if c = '"' then ['\\', '"']
  else if c = '\\' then ['\\', '\\']
  else if c = '\n' then ['\\', 'n']
  else if c = '\x0d' then ['\\', 'r']
  else if c = '\t' then ['\\', 't']
  else if c = '\x08' then ['\\', 'b']
  else if c = '\x0c' then ['\\', 'f']
  else if c.toNat < 32 then '\\' :: 'u' :: hex4 c.toNat
  else if c.toNat < 127 then [c]
  else if c.toNat < 65536 then '\\' :: 'u' :: hex4 c.toNat
  else
    '\\' :: 'u' :: hex4 (55296 + (c.toNat - 65536) / 1024) ++
      ('\\' :: 'u' :: hex4 (56320 + (c.toNat - 65536) % 1024))

/-- A JSON string literal. -/
def jsonStr (s : List Char) : List Char :=
  '"' :: (s.flatMap jsonEscapeChar) ++ ['"']

/-- A JSON optional-string value (`None ↦ null`). -/
def jsonOptStr : Option (List Char) → List Char
  | none => "null".toList
  | some s => jsonStr s

/-- `json.dumps(cache_data, sort_keys=True)` for the cache-key record: the
keys `query < user_id < user_role` are already in sorted order, and the
default separators are `", "` and `": "`. -/
def serializeCacheData (q : List Char) (uid role : Option (List Char)) :
    List Char :=
  lbrace :: ("\"query\": ".toList ++ jsonStr (pyStrip (pyLower q)) ++
    ", \"user_id\": ".toList ++ jsonOptStr uid ++
    ", \"user_role\": ".toList ++ jsonOptStr role) ++ [rbrace]

/-- UTF-8 encoding (`str.encode()`), byte values as `ℕ`. -/
def utf8Encode (s : List Char) : List ℕ :=
  s.flatMap (fun c =>
    let n := c.toNat
    if n < 128 then [n]
    else if n < 2048 then [192 + n / 64, 128 + n % 64]
    else if n < 65536 then [224 + n / 4096, 128 + n / 64 % 64, 128 + n % 64]
    else [240 + n / 262144, 128 + n / 4096 % 64, 128 + n / 64 % 64,
      128 + n % 64])

/-- 2^32. -/
def w32 : ℕ := 4294967296

/-- Bitwise complement on 32 bits. -/
def not32 (x : ℕ) : ℕ := Nat.xor x 4294967295

/-- 32-bit left rotation (the two shifted fields are disjoint, so `+` is
their union). -/
def rotl32 (x s : ℕ) : ℕ := (x * 2 ^ s) % w32 + x / 2 ^ (32 - s)

/-- The MD5 sine table `K` (RFC 1321). -/
def md5K : List ℕ :=
  [3614090360, 3905402710, 606105819, 3250441966, 4118548399, 1200080426,
   2821735955, 4249261313, 1770035416, 2336552879, 4294925233, 2304563134,
   1804603682, 4254626195, 2792965006, 1236535329, 4129170786, 3225465664,
   643717713, 3921069994, 3593408605, 38016083, 3634488961, 3889429448,
   568446438, 3275163606, 4107603335, 1163531501, 2850285829, 4243563512,
   1735328473, 2368359562, 4294588738, 2272392833, 1839030562, 4259657740,
   2763975236, 1272893353, 4139469664, 3200236656, 681279174, 3936430074,
   3572445317, 76029189, 3654602809, 3873151461, 530742520, 3299628645,
   4096336452, 1126891415, 2878612391, 4237533241, 1700485571, 2399980690,
   4293915773, 2240044497, 1873313359, 4264355552, 2734768916, 1309151649,
   4149444226, 3174756917, 718787259, 3951481745]

/-- The MD5 per-round shift amounts. -/
def md5S : List ℕ :=
  [7, 12, 17, 22, 7, 12, 17, 22, 7, 12, 17, 22, 7, 12, 17, 22,
   5, 9, 14, 20, 5, 9, 14, 20, 5, 9, 14, 20, 5, 9, 14, 20,
   4, 11, 16, 23, 4, 11, 16, 23, 4, 11, 16, 23, 4, 11, 16, 23,
   6, 10, 15, 21, 6, 10, 15, 21, 6, 10, 15, 21, 6, 10, 15, 21]

/-- The MD5 round mixers. -/
def md5F (i b c d : ℕ) : ℕ :=
  if i < 16 then Nat.lor (Nat.land b c) (Nat.land (not32 b) d)
  else if i < 32 then Nat.lor (Nat.land d b) (Nat.land (not32 d) c)
  else if i < 48 then Nat.xor b (Nat.xor c d)
  else Nat.xor c (Nat.lor b (not32 d))

/-- The MD5 message-word schedule. -/
def md5g (i : ℕ) : ℕ :=
  if i < 16 then i
  else if i < 32 then (5 * i + 1) % 16
  else if i < 48 then (3 * i + 5) % 16
  else (7 * i) % 16

/-- Little-endian 32-bit word `j` of a 64-byte block. -/
def blockWord (block : List ℕ) (j : ℕ) : ℕ :=
  block.getD (4 * j) 0 + 256 * block.getD (4 * j + 1) 0 +
    65536 * block.getD (4 * j + 2) 0 + 16777216 * block.getD (4 * j + 3) 0

/-- One MD5 compression of a 64-byte block into the running state. -/
def md5Block (st : ℕ × ℕ × ℕ × ℕ) (block : List ℕ) : ℕ × ℕ × ℕ × ℕ :=
  let r := (List.range 64).foldl
    (fun q i =>
      match q with
      | (a, b, c, d) =>
        let f := (md5F i b c d + a + md5K.getD i 0 +
          blockWord block (md5g i)) % w32
        (d, (b + rotl32 f (md5S.getD i 0)) % w32, b, c))
    st
  match st, r with
  | (a0, b0, c0, d0), (a, b, c, d) =>
    ((a0 + a) % w32, (b0 + b) % w32, (c0 + c) % w32, (d0 + d) % w32)

/-- Split into 64-byte blocks (fuel = list length). -/
def chunks64Aux : ℕ → List ℕ → List (List ℕ)
  | 0, _ => []
  | _ + 1, [] => []
  | fuel + 1, l => l.take 64 :: chunks64Aux fuel (l.drop 64)

/-- Split a padded message into 64-byte blocks. -/
def chunks64 (l : List ℕ) : List (List ℕ) := chunks64Aux l.length l

/-- Little-endian byte decomposition of a 32-bit word. -/
def leBytes4 (x : ℕ) : List ℕ :=
  [x % 256, x / 256 % 256, x / 65536 % 256, x / 16777216 % 256]

/-- MD5 padding: `0x80`, zeros to 56 mod 64, the bit length in 8 bytes
little-endian. -/
def md5Pad (msg : List ℕ) : List ℕ :=
  let bitLen := 8 * msg.length % 18446744073709551616
  msg ++ [128] ++ List.replicate ((119 - msg.length % 64) % 64) 0 ++
    [bitLen % 256, bitLen / 256 % 256, bitLen / 65536 % 256,
     bitLen / 16777216 % 256, bitLen / 4294967296 % 256,
     bitLen / 1099511627776 % 256, bitLen / 281474976710656 % 256,
     bitLen / 72057594037927936 % 256]

/-- The 16 digest bytes of a byte message. -/
def md5Bytes (msg : List ℕ) : List ℕ :=
  match (chunks64 (md5Pad msg)).foldl md5Block
    (1732584193, 4023233417, 2562383102, 271733878) with
  | (a, b, c, d) => leBytes4 a ++ leBytes4 b ++ leBytes4 c ++ leBytes4 d

/-- `hashlib.md5(...).hexdigest()`. -/
def md5Hex (msg : List ℕ) : List Char :=
  (md5Bytes msg).flatMap (fun b => [hexDigit (b / 16), hexDigit (b % 16)])

/-- `_generate_request_cache_key`. -/
def generateRequestCacheKey (q : List Char) (uid role : Option (List Char)) :
    List Char :=
  md5Hex (utf8Encode (serializeCacheData q uid role))

/-- RFC 1321 test vector: the empty message. -/
theorem md5Hex_empty : md5Hex [] = "d41d8cd98f00b204e9800998ecf8427e".toList := by
  decide

/-- RFC 1321 test vector: `"abc"`. -/
theorem md5Hex_abc :
    md5Hex (utf8Encode "abc".toList) =
      "900150983cd24fb0d6963f7d28e17f72".toList := by
  decide

/-- C4 (amended): the request-cache key is a digest of the LOWERCASED,
TRIMMED query (together with user id and role) — not of the fully normalized
query.  Queries agreeing after `lower().strip()` therefore collide to the
same key. -/
theorem c4_cache_key (q1 q2 : List Char) (uid role : Option (List Char))
    (h : pyStrip (pyLower q1) = pyStrip (pyLower q2)) :
    generateRequestCacheKey q1 uid role = generateRequestCacheKey q2 uid role := by
  unfold generateRequestCacheKey serializeCacheData
  rw [h]

/-- Witness for `c4_cache_key`: `"Find X "` and `"find x"`. -/
theorem c4_cache_key_witness :
    generateRequestCacheKey "Find X ".toList (some "u1".toList)
        (some "admin".toList) =
      generateRequestCacheKey "find x".toList (some "u1".toList)
        (some "admin".toList) :=
  c4_cache_key _ _ _ _ (by decide)

/-- C4 counterexample: `"find x"` and `"x"` have the SAME fully-normalized
query (the filler verb `find` is stripped by `_normalize_query`), same user
and role, yet their request-cache keys differ — the key hashes
`query.lower().strip()`, which still contains the filler.  So an equivalent
re-issued query is not necessarily a tier-1 hit. -/
theorem c4_counterexample :
    normalizeQuery "find x".toList = normalizeQuery "x".toList ∧
      generateRequestCacheKey "find x".toList none none ≠
        generateRequestCacheKey "x".toList none none := by
  constructor
  · decide
  · decide

/-! ## C9 — structural-cache round trip
(`routes.py _extract_structural_pattern` route side, `_apply_structural_cache`
substitution)

The route side of `_extract_structural_pattern` replaces, for each entity `i`
(in `enumerate` order) whose id is non-empty and occurs in the ORIGINAL
route, every occurrence of that id in the evolving template by the
placeholder `{ENTITY_ID_i}`, recording `placeholder ↦ id`;
`_apply_structural_cache` then substitutes each recorded placeholder back by
`str.replace`, walking the mapping in insertion order (the query-derived
placeholders `{PERSON_i}` / `{NUMBER_i}` / `{WORD_i}` come first).  To reason
about which parts of the evolving template are original route text and which
are placeholder copies, templates are mirrored as token lists (`STok`), with
`flattenTok` mapping back to the character string. -/

/-- Decimal digit character. -/
def digitChar (n : ℕ) : Char := Char.ofNat (48 + n)

/-- Decimal rendering of a natural (f-string `{i}`), fuel-driven. -/
def natCharsAux : ℕ → ℕ → List Char
  | 0, n => [digitChar n]
  | fuel + 1, n =>
    if n < 10 then [digitChar n]
    else natCharsAux fuel (n / 10) ++ [digitChar (n % 10)]

/-- Decimal rendering of a natural number. -/
def natChars (n : ℕ) : List Char := natCharsAux n n

/-- Fuel irrelevance for `natCharsAux`. -/
theorem natCharsAux_fuel_irrel :
    ∀ (fuel fuel' n : ℕ), n ≤ fuel → n ≤ fuel' →
      natCharsAux fuel n = natCharsAux fuel' n := by
  intro fuel
  induction fuel using Nat.strong_induction_on with
  | _ fuel ih =>
    intro fuel' n hf hf'
    by_cases h : n < 10
    · cases fuel <;> cases fuel' <;> simp [natCharsAux, h]
    · cases fuel with
      | zero => omega
      | succ fuel =>
        cases fuel' with
        | zero => omega
        | succ fuel' =>
          simp only [natCharsAux, if_neg h]
          congr 1
          exact ih fuel (Nat.lt_succ_self _) fuel' (n / 10)
            (by omega) (by omega)

/-- The defining recurrence of `natChars`. -/
theorem natChars_eq (n : ℕ) :
    natChars n = if n < 10 then [digitChar n]
      else natChars (n / 10) ++ [digitChar (n % 10)] := by
  by_cases h : n < 10
  · rw [if_pos h]
    unfold natChars
    cases n with
    | zero => rfl
    | succ m => simp [natCharsAux, h]
  · rw [if_neg h]
    unfold natChars
    obtain ⟨m, rfl⟩ : ∃ m, n = m + 1 := ⟨n - 1, by omega⟩
    simp only [natCharsAux, if_neg h]
    congr 1
    exact natCharsAux_fuel_irrel m ((m + 1) / 10) ((m + 1) / 10)
      (by omega) le_rfl

/-- `digitChar` code point. -/
theorem digitChar_toNat (d : ℕ) (h : d < 10) : (digitChar d).toNat = 48 + d :=
  toNat_ofNat_valid _ (by omega)

/-- `digitChar` is injective below 10. -/
theorem digitChar_inj {a b : ℕ} (ha : a < 10) (hb : b < 10)
    (h : digitChar a = digitChar b) : a = b := by
  have := congrArg Char.toNat h
  rw [digitChar_toNat a ha, digitChar_toNat b hb] at this
  omega

/-- Every character of `natChars` is a decimal digit. -/
theorem natChars_digit : ∀ (n : ℕ) (c : Char), c ∈ natChars n →
    ∃ d, d < 10 ∧ c = digitChar d := by
  intro n
  induction n using Nat.strong_induction_on with
  | _ n ih =>
    intro c hc
    rw [natChars_eq] at hc
    by_cases h : n < 10
    · rw [if_pos h] at hc
      simp only [List.mem_singleton] at hc
      exact ⟨n, h, hc⟩
    · rw [if_neg h] at hc
      rcases List.mem_append.mp hc with hl | hr
      · exact ih (n / 10) (by omega) c hl
      · simp only [List.mem_singleton] at hr
        exact ⟨n % 10, Nat.mod_lt _ (by omega), hr⟩

/-- Digits are not braces. -/
theorem digit_ne_braces {c : Char} (h : ∃ d, d < 10 ∧ c = digitChar d) :
    c ≠ lbrace ∧ c ≠ rbrace := by
  rcases h with ⟨d, hd, rfl⟩
  have := digitChar_toNat d hd
  constructor <;> intro he <;> rw [he] at this <;>
    simp [lbrace, rbrace, Char.toNat, Char.ofNat, Char.ofNatAux,
      Nat.isValidChar, UInt32.toNat] at this <;> omega

/-- `natChars` is never empty. -/
theorem natChars_ne_nil (n : ℕ) : natChars n ≠ [] := by
  rw [natChars_eq]
  by_cases h : n < 10 <;> simp [h]

/-- Decimal rendering is injective. -/
theorem natChars_inj : ∀ (m n : ℕ), natChars m = natChars n → m = n := by
  intro m
  induction m using Nat.strong_induction_on with
  | _ m ih =>
    intro n h
    by_cases hm : m < 10 <;> by_cases hn : n < 10
    · rw [natChars_eq m, if_pos hm, natChars_eq n, if_pos hn] at h
      simp only [List.cons.injEq, and_true] at h
      exact digitChar_inj hm hn h
    · rw [natChars_eq m, if_pos hm, natChars_eq n, if_neg hn] at h
      have hlen := congrArg List.length h
      simp only [List.length_singleton, List.length_append] at hlen
      exact absurd (List.eq_nil_of_length_eq_zero (by omega))
        (natChars_ne_nil (n / 10))
    · rw [natChars_eq m, if_neg hm, natChars_eq n, if_pos hn] at h
      have hlen := congrArg List.length h
      simp only [List.length_singleton, List.length_append] at hlen
      exact absurd (List.eq_nil_of_length_eq_zero (by omega))
        (natChars_ne_nil (m / 10))
    · rw [natChars_eq m, if_neg hm, natChars_eq n, if_neg hn] at h
      rcases List.append_inj' h rfl with ⟨h1, h2⟩
      simp only [List.cons.injEq, and_true] at h2
      have e1 : m / 10 = n / 10 := ih (m / 10) (by omega) (n / 10) h1
      have e2 : m % 10 = n % 10 :=
        digitChar_inj (Nat.mod_lt _ (by omega)) (Nat.mod_lt _ (by omega)) h2
      omega

/-- The f-string `f"{{ENTITY_ID_{i}}}"`: the inner text of the placeholder. -/
def entBody (k : ℕ) : List Char :=
  "ENTITY_ID_".toList ++ natChars k ++ [rbrace]

/-- The structural-cache route placeholder `{ENTITY_ID_k}`. -/
def entPlaceholder (k : ℕ) : List Char := lbrace :: entBody k

/-- `{` does not occur in the placeholder body. -/
theorem lbrace_not_mem_entBody (k : ℕ) : lbrace ∉ entBody k := by
  intro h
  unfold entBody at h
  rcases List.mem_append.mp h with h | h
  · rcases List.mem_append.mp h with h | h
    · revert h; decide
    · exact absurd rfl (digit_ne_braces (natChars_digit k _ h)).1
  · simp only [List.mem_singleton] at h
    revert h; decide

/-- `}` occurs in the body only as its final character. -/
theorem rbrace_not_mem_entBody_dropLast (k : ℕ) :
    rbrace ∉ ("ENTITY_ID_".toList ++ natChars k) := by
  intro h
  rcases List.mem_append.mp h with h | h
  · revert h; decide
  · exact absurd rfl (digit_ne_braces (natChars_digit k _ h)).2

/-- The last character of a placeholder is `}`. -/
theorem entPlaceholder_getLast (k : ℕ) :
    (entPlaceholder k).getLast? = some rbrace := by
  unfold entPlaceholder entBody
  rw [getLast?_cons_of_ne_nil (by simp), List.append_assoc,
    getLast?_append_right (by simp)]
  rw [getLast?_append_right (by simp)]
  rfl

/-- A structural-pattern token: an original route character or an inserted
placeholder copy. -/
inductive STok
  | chr (c : Char)
  | ph (k : ℕ)
deriving DecidableEq

/-- Flatten a token list back to the character string it stands for. -/
def flattenTok (ts : List STok) : List Char :=
  ts.flatMap (fun t =>
    match t with
    | STok.chr c => [c]
    | STok.ph k => entPlaceholder k)

/-- The route-side walk of `_extract_structural_pattern`: thread the evolving
template through the entity list (with its `enumerate` index), recording
`placeholder ↦ id` for each non-empty id occurring in the ORIGINAL route. -/
def extractStructAux (route : List Char) :
    List (List Char) → ℕ → List Char → List Char × List (List Char × List Char)
  | [], _, pr => (pr, [])
  | id :: rest, i, pr =>
    if id ≠ [] ∧ isSub id route = true then
      let r := extractStructAux route rest (i + 1)
        (repAll id (entPlaceholder i) pr)
      (r.1, (entPlaceholder i, id) :: r.2)
    else
      extractStructAux route rest (i + 1) pr

/-- The templated route (`pattern_route`). -/
def extractRouteTemplate (route : List Char) (ids : List (List Char)) :
    List Char :=
  (extractStructAux route ids 0 route).1

/-- The recorded entity mapping, in insertion order. -/
def extractEntityMapping (route : List Char) (ids : List (List Char)) :
    List (List Char × List Char) :=
  (extractStructAux route ids 0 route).2

/-- The abort guard of `_extract_structural_pattern`:
`'{' in pattern_route and 'ENTITY_ID_' not in pattern_route`. -/
def structuralAbort (pr : List Char) : Bool :=
  pyContains pr [lbrace] && ! pyContains pr "ENTITY_ID_".toList

/-- The substitution loop of `_apply_structural_cache`, restricted to one
string: replace each recorded placeholder by its recorded value, walking the
mapping in insertion order. -/
def applySubst (mapping : List (List Char × List Char)) (s : List Char) :
    List Char :=
  mapping.foldl (fun acc kv => repAll kv.1 kv.2 acc) s

/-- Strong induction on list length. -/
theorem list_length_ind {α : Type _} {P : List α → Prop}
    (step : ∀ s, (∀ t : List α, t.length < s.length → P t) → P s) :
    ∀ s, P s := by
  intro s
  generalize hn : s.length = n
  induction n using Nat.strong_induction_on generalizing s with
  | _ n ihn =>
    subst hn
    exact step s (fun t ht => ihn t.length ht t rfl)

/-- Elements of a `repAll` output come from the input or the replacement. -/
theorem mem_repAll [DecidableEq α] (old new : List α) :
    ∀ (s : List α) (x : α), x ∈ repAll old new s → x ∈ s ∨ x ∈ new := by
  intro s
  induction s using list_length_ind with
  | step s ih =>
    intro x hx
    cases s with
    | nil => rw [repAll_nil] at hx; simp at hx
    | cons c rest =>
      rw [repAll_cons] at hx
      by_cases h : old ≠ [] ∧ old.isPrefixOf (c :: rest) = true
      · rw [if_pos h] at hx
        rcases List.mem_append.mp hx with hl | hr
        · exact Or.inr hl
        · rcases ih _ (by
            have := (List.drop_sublist (old.length - 1) rest).length_le
            simp only [List.length_cons]
            omega) x hr with h1 | h2
          · exact Or.inl (by
              have := (List.drop_sublist (old.length - 1) rest).mem h1
              simp [this])
          · exact Or.inr h2
      · rw [if_neg h] at hx
        rcases List.mem_cons.mp hx with rfl | h'
        · exact Or.inl (by simp)
        · rcases ih rest (by simp) x h' with h1 | h2
          · exact Or.inl (by simp [h1])
          · exact Or.inr h2

/-- If the pattern never matches (at any suffix), `repAll` is the identity. -/
theorem repAll_no_occ [DecidableEq α] (old new : List α)
    (s : List α)
    (h : ∀ sfx, sfx <:+ s → ¬ (old ≠ [] ∧ old.isPrefixOf sfx = true)) :
    repAll old new s = s := by
  induction s using list_length_ind with
  | step s ih =>
    cases s with
    | nil => exact repAll_nil old new
    | cons c rest =>
      rw [repAll_cons, if_neg (h (c :: rest) (List.suffix_refl _))]
      rw [ih rest (by simp)
        (fun sfx hsfx => h sfx (hsfx.trans (List.suffix_cons c rest)))]

/-- A block with no pattern match at any of its (non-empty) cut points is
copied verbatim by `repAll`. -/
theorem repAll_skip [DecidableEq α] (old new : List α) :
    ∀ (blk rest : List α),
      (∀ sfx, sfx ≠ [] → sfx <:+ blk → ¬ old.isPrefixOf (sfx ++ rest) = true) →
      repAll old new (blk ++ rest) = blk ++ repAll old new rest := by
  intro blk
  induction blk with
  | nil => intro rest _; rfl
  | cons b blk' ih =>
    intro rest h
    rw [List.cons_append, repAll_cons]
    rw [if_neg (by
      rintro ⟨_, hp⟩
      exact h (b :: blk') (by simp) (List.suffix_refl _)
        (by simpa using hp))]
    rw [ih rest (fun sfx hne hsfx =>
      h sfx hne (hsfx.trans (List.suffix_cons b blk')))]
    simp

/-- `repAll` with a one-element pattern is pointwise expansion. -/
theorem repAll_singleton [DecidableEq α] (a : α) (new : List α) :
    ∀ (s : List α),
      repAll [a] new s = s.flatMap (fun t => if t = a then new else [t]) := by
  intro s
  induction s using list_length_ind with
  | step s ih =>
    cases s with
    | nil => rw [repAll_nil]; rfl
    | cons c rest =>
      rw [repAll_cons, List.flatMap_cons]
      by_cases h : c = a
      · subst h
        rw [if_pos ⟨by simp, by simp [List.isPrefixOf]⟩, if_pos rfl]
        simp only [List.length_singleton, Nat.sub_self, List.drop_zero]
        rw [ih rest (by simp)]
      · rw [if_neg (by
          rintro ⟨_, hp⟩
          rw [List.isPrefixOf_iff_prefix] at hp
          rcases hp with ⟨t, ht⟩
          simp only [List.singleton_append, List.cons.injEq] at ht
          exact h ht.1.symm), if_neg h]
        rw [ih rest (by simp)]
        rfl

/-- An element reported by `getLast?` is a member. -/
theorem mem_of_getLast?_eq {l : List α} {a : α} (h : l.getLast? = some a) :
    a ∈ l := by
  rcases List.mem_getLast?_eq_getLast (by rw [h]; rfl) with ⟨hne, rfl⟩
  exact List.getLast_mem hne

/-- `flattenTok` distributes over append. -/
theorem flattenTok_append (a b : List STok) :
    flattenTok (a ++ b) = flattenTok a ++ flattenTok b := by
  simp [flattenTok]

/-- Flattening a pure-character token list is the identity. -/
theorem flattenTok_map_chr : ∀ l : List Char,
    flattenTok (l.map STok.chr) = l := by
  intro l
  induction l with
  | nil => rfl
  | cons c rest ih =>
    simp only [List.map_cons, flattenTok, List.flatMap_cons] at ih ⊢
    rw [ih]
    rfl

/-- Characters of a flattened token list come from a character token or from
a placeholder copy. -/
theorem mem_flattenTok {c : Char} {ts : List STok} (h : c ∈ flattenTok ts) :
    STok.chr c ∈ ts ∨ ∃ k, STok.ph k ∈ ts ∧ c ∈ entPlaceholder k := by
  rcases List.mem_flatMap.mp h with ⟨t, ht, hc⟩
  cases t with
  | chr d =>
    simp only [List.mem_singleton] at hc
    subst hc
    exact Or.inl ht
  | ph k => exact Or.inr ⟨k, ht, hc⟩

/-- A brace-free character string is a prefix of a flattened token list iff
its character tokens are a prefix of the token list. -/
theorem prefix_flatten_iff :
    ∀ (id : List Char), lbrace ∉ id → ∀ ts : List STok,
      (id <+: flattenTok ts ↔ id.map STok.chr <+: ts) := by
  intro id
  induction id with
  | nil => intro _ ts; simp
  | cons x xs ih =>
    intro hid ts
    have hx : x ≠ lbrace := fun he => hid (he ▸ List.mem_cons_self x xs)
    have hxs : lbrace ∉ xs := fun he => hid (List.mem_cons_of_mem _ he)
    cases ts with
    | nil =>
      constructor
      · intro h
        exact absurd (List.prefix_nil.mp h) (by simp)
      · intro h
        exact absurd (List.prefix_nil.mp h) (by simp)
    | cons t ts' =>
      cases t with
      | chr c =>
        have hf : flattenTok (STok.chr c :: ts') = c :: flattenTok ts' := rfl
        rw [hf]
        simp only [List.map_cons, List.cons_prefix_cons, STok.chr.injEq]
        exact and_congr_right (fun _ => ih hxs ts')
      | ph k =>
        have hf : flattenTok (STok.ph k :: ts') =
            lbrace :: (entBody k ++ flattenTok ts') := rfl
        rw [hf]
        constructor
        · intro hp
          exact absurd (List.cons_prefix_cons.mp hp).1 hx
        · intro hp
          simp only [List.map_cons] at hp
          exact STok.noConfusion (List.cons_prefix_cons.mp hp).1

/-- Two brace-free brace-terminated words opening a common string agree. -/
theorem brace_terminated_inj :
    ∀ (a : List Char), rbrace ∉ a → ∀ (b : List Char), rbrace ∉ b →
      ∀ r : List Char, (a ++ [rbrace]) <+: (b ++ rbrace :: r) → a = b := by
  intro a
  induction a with
  | nil =>
    intro _ b hb r hp
    cases b with
    | nil => rfl
    | cons c b' =>
      rw [List.nil_append, List.cons_append] at hp
      have he := (List.cons_prefix_cons.mp hp).1
      cases he
      exact absurd (List.mem_cons_self _ _) hb
  | cons x a' ih =>
    intro ha b hb r hp
    cases b with
    | nil =>
      rw [List.nil_append, List.cons_append] at hp
      have he := (List.cons_prefix_cons.mp hp).1
      cases he
      exact absurd (List.mem_cons_self _ _) ha
    | cons c b' =>
      rw [List.cons_append, List.cons_append] at hp
      have he := (List.cons_prefix_cons.mp hp).1
      have htl := (List.cons_prefix_cons.mp hp).2
      cases he
      have hx : rbrace ∉ a' := fun h => ha (List.mem_cons_of_mem _ h)
      have hc : rbrace ∉ b' := fun h => hb (List.mem_cons_of_mem _ h)
      rw [ih hx b' hc r htl]

/-- A placeholder is a prefix of another placeholder (plus residue) only when
the indices agree. -/
theorem ph_prefix_det {k j : ℕ} {r : List Char}
    (hp : entPlaceholder k <+: entPlaceholder j ++ r) : k = j := by
  have hk : entPlaceholder k =
      (lbrace :: "ENTITY_ID_".toList) ++ (natChars k ++ [rbrace]) := by
    simp [entPlaceholder, entBody]
  have hj : entPlaceholder j ++ r =
      (lbrace :: "ENTITY_ID_".toList) ++ (natChars j ++ (rbrace :: r)) := by
    simp [entPlaceholder, entBody]
  rw [hk, hj] at hp
  have hp2 := (List.prefix_append_right_inj _).mp hp
  exact natChars_inj _ _ (brace_terminated_inj _
    (fun h => (digit_ne_braces (natChars_digit k _ h)).2 rfl) _
    (fun h => (digit_ne_braces (natChars_digit j _ h)).2 rfl) _ hp2)

/-- Decompose a suffix of an append. -/
theorem suffix_append_cases {α : Type _} :
    ∀ (a b sfx : List α), sfx <:+ a ++ b →
      sfx <:+ b ∨ ∃ sa, sa ≠ [] ∧ sa <:+ a ∧ sfx = sa ++ b := by
  intro a
  induction a with
  | nil =>
    intro b sfx h
    exact Or.inl (by simpa using h)
  | cons x a' ih =>
    intro b sfx h
    rw [List.cons_append, List.suffix_cons_iff] at h
    rcases h with rfl | h
    · exact Or.inr ⟨x :: a', by simp, List.suffix_refl _, by simp⟩
    · rcases ih b sfx h with h1 | ⟨sa, hne, hsa, rfl⟩
      · exact Or.inl h1
      · exact Or.inr ⟨sa, hne, hsa.trans (List.suffix_cons x a'), rfl⟩

/-- A non-empty, `}`-free id that is not an infix of any placeholder with
index below `N` cannot match starting inside such a placeholder copy. -/
theorem id_no_match_in_ph {id : List Char} (hne : id ≠ [])
    (hrb : rbrace ∉ id) {N : ℕ} (hinf : ∀ j, j < N → ¬ id <:+: entPlaceholder j)
    (j : ℕ) (hj : j < N) (rest : List Char) :
    ∀ sfx, sfx ≠ [] → sfx <:+ entPlaceholder j →
      ¬ id.isPrefixOf (sfx ++ rest) = true := by
  intro sfx hsne hsfx hp
  rw [List.isPrefixOf_iff_prefix] at hp
  by_cases hlen : id.length ≤ sfx.length
  · have hid : id <+: sfx :=
      List.prefix_of_prefix_length_le hp (List.prefix_append sfx rest) hlen
    rcases hsfx with ⟨u, hu⟩
    rcases hid with ⟨v, hv⟩
    exact hinf j hj ⟨u, v, by rw [List.append_assoc, hv, hu]⟩
  · push_neg at hlen
    have hsp : sfx <+: id :=
      List.prefix_of_prefix_length_le (List.prefix_append sfx rest) hp
        (le_of_lt hlen)
    have hlast : sfx.getLast? = some rbrace := by
      rw [getLast?_of_suffix hsfx hsne]
      exact entPlaceholder_getLast j
    exact hrb (hsp.subset (mem_of_getLast?_eq hlast))

/-- Replacing a brace-free id by a placeholder commutes with flattening:
character-level `str.replace` on the flattened string agrees with token-level
replacement, provided the id cannot match inside any placeholder copy already
present. -/
theorem repAll_flatten_fwd {id : List Char} (N k : ℕ)
    (hne : id ≠ []) (hlb : lbrace ∉ id) (hrb : rbrace ∉ id)
    (hinf : ∀ j, j < N → ¬ id <:+: entPlaceholder j) :
    ∀ ts : List STok, (∀ m, STok.ph m ∈ ts → m < N) →
      repAll id (entPlaceholder k) (flattenTok ts) =
        flattenTok (repAll (id.map STok.chr) [STok.ph k] ts) := by
  intro ts
  induction ts using list_length_ind with
  | step ts ih =>
    intro hts
    cases ts with
    | nil =>
      have h0 : flattenTok ([] : List STok) = [] := rfl
      rw [h0, repAll_nil, repAll_nil, h0]
    | cons t ts' =>
      cases t with
      | chr c =>
        have hf : flattenTok (STok.chr c :: ts') = c :: flattenTok ts' := rfl
        by_cases hp : id.isPrefixOf (c :: flattenTok ts') = true
        · have hpP : id <+: c :: flattenTok ts' :=
            List.isPrefixOf_iff_prefix.mp hp
          have hpT : id.map STok.chr <+: STok.chr c :: ts' := by
            rw [← prefix_flatten_iff id hlb (STok.chr c :: ts')]
            exact hf ▸ hpP
          obtain ⟨x, xs, rfl⟩ : ∃ x xs, id = x :: xs := by
            cases id with
            | nil => exact absurd rfl hne
            | cons x xs => exact ⟨x, xs, rfl⟩
          have hxc : x = c := (List.cons_prefix_cons.mp hpP).1
          subst hxc
          have hxsP : xs.map STok.chr <+: ts' := by
            simp only [List.map_cons] at hpT
            exact (List.cons_prefix_cons.mp hpT).2
          obtain ⟨tl, htl⟩ := hxsP
          rw [hf, repAll_cons, if_pos ⟨hne, hp⟩]
          rw [repAll_cons, if_pos ⟨by simp, List.isPrefixOf_iff_prefix.mpr hpT⟩]
          have hts' : flattenTok ts' = xs ++ flattenTok tl := by
            rw [← htl, flattenTok_append, flattenTok_map_chr]
          have hd1 : (flattenTok ts').drop ((x :: xs).length - 1) =
              flattenTok tl := by
            rw [hts']
            simp only [List.length_cons, Nat.add_sub_cancel]
            have : xs.length = xs.length := rfl
            rw [show xs.length = (xs : List Char).length from rfl,
              List.drop_left]
          have hd2 : ts'.drop (((x :: xs).map STok.chr).length - 1) = tl := by
            rw [← htl]
            simp only [List.length_map, List.length_cons, Nat.add_sub_cancel]
            rw [show xs.length = (xs.map STok.chr).length from
              (List.length_map _ _).symm, List.drop_left]
          rw [hd1, hd2, flattenTok_append]
          have hlen : tl.length < (STok.chr x :: ts').length := by
            have : ts'.length = (xs.map STok.chr).length + tl.length := by
              rw [← htl, List.length_append]
            simp only [List.length_cons]
            omega
          rw [ih tl hlen (fun m hm => hts m
            (List.mem_cons_of_mem _ (htl ▸ List.mem_append_right _ hm)))]
          simp [flattenTok]
        · have hpT : ¬ (id.map STok.chr).isPrefixOf (STok.chr c :: ts') =
              true := by
            intro h
            apply hp
            rw [List.isPrefixOf_iff_prefix] at h ⊢
            rw [show (c : Char) :: flattenTok ts' =
              flattenTok (STok.chr c :: ts') from rfl]
            exact (prefix_flatten_iff id hlb (STok.chr c :: ts')).mpr h
          rw [hf, repAll_cons, if_neg (by rintro ⟨_, hh⟩; exact hp hh)]
          rw [repAll_cons, if_neg (by rintro ⟨_, hh⟩; exact hpT hh)]
          rw [ih ts' (by simp) (fun m hm => hts m (List.mem_cons_of_mem _ hm))]
          rfl
      | ph j =>
        have hf : flattenTok (STok.ph j :: ts') =
            entPlaceholder j ++ flattenTok ts' := rfl
        have hj : j < N := hts j (List.mem_cons_self _ _)
        have hpT : ¬ (id.map STok.chr).isPrefixOf (STok.ph j :: ts') =
            true := by
          cases id with
          | nil => exact absurd rfl hne
          | cons x xs =>
            intro h
            rw [List.isPrefixOf_iff_prefix] at h
            simp only [List.map_cons] at h
            exact STok.noConfusion (List.cons_prefix_cons.mp h).1
        rw [hf, repAll_skip id (entPlaceholder k) (entPlaceholder j)
          (flattenTok ts')
          (id_no_match_in_ph hne hrb hinf j hj (flattenTok ts'))]
        rw [repAll_cons, if_neg (by rintro ⟨_, hh⟩; exact hpT hh)]
        rw [ih ts' (by simp) (fun m hm => hts m (List.mem_cons_of_mem _ hm))]
        rfl

/-- Any suffix of a flattened token list (whose character tokens are
brace-free) that starts with `{` starts with a full placeholder copy. -/
theorem lbrace_suffix_flatten :
    ∀ (ts : List STok), (∀ c, STok.chr c ∈ ts → c ≠ lbrace) →
      ∀ sfx', (lbrace :: sfx') <:+ flattenTok ts →
        ∃ j r, sfx' = entBody j ++ r := by
  intro ts
  induction ts with
  | nil =>
    intro _ sfx' h
    rw [show flattenTok ([] : List STok) = [] from rfl] at h
    exact absurd (List.suffix_nil.mp h) (by simp)
  | cons t ts' ih =>
    intro hchr sfx' h
    cases t with
    | chr c =>
      have hf : flattenTok (STok.chr c :: ts') = c :: flattenTok ts' := rfl
      rw [hf] at h
      rcases List.suffix_cons_iff.mp h with he | h'
      · have : lbrace = c := by
          have := congrArg List.head? he
          simpa using this
        exact absurd this.symm (hchr c (List.mem_cons_self _ _))
      · exact ih (fun d hd => hchr d (List.mem_cons_of_mem _ hd)) sfx' h'
    | ph j =>
      have hf : flattenTok (STok.ph j :: ts') =
          entPlaceholder j ++ flattenTok ts' := rfl
      rw [hf] at h
      rcases suffix_append_cases _ _ _ h with h' | ⟨sa, hne, hsa, he⟩
      · exact ih (fun d hd => hchr d (List.mem_cons_of_mem _ hd)) sfx' h'
      · rcases List.suffix_cons_iff.mp
          (show sa <:+ lbrace :: entBody j from hsa) with rfl | hsb
        · refine ⟨j, flattenTok ts', ?_⟩
          simpa using he
        · cases sa with
          | nil => exact absurd rfl hne
          | cons s0 sa' =>
            have hs0 : s0 = lbrace := by
              have := congrArg List.head? he
              simpa using this.symm
            subst hs0
            exact absurd (hsb.subset (List.mem_cons_self _ _))
              (lbrace_not_mem_entBody j)

/-- Replacing a placeholder back by text commutes with flattening: the
character-level replacement of `\x7bENTITY_ID_k\x7d` equals the token-level
replacement of the `ph k` token, provided the character tokens are
brace-free. -/
theorem repAll_flatten_bwd (k : ℕ) (id : List Char) :
    ∀ ts : List STok, (∀ c, STok.chr c ∈ ts → c ≠ lbrace) →
      repAll (entPlaceholder k) id (flattenTok ts) =
        flattenTok (repAll [STok.ph k] (id.map STok.chr) ts) := by
  intro ts
  induction ts using list_length_ind with
  | step ts ih =>
    intro hchr
    cases ts with
    | nil =>
      have h0 : flattenTok ([] : List STok) = [] := rfl
      rw [h0, repAll_nil, repAll_nil, h0]
    | cons t ts' =>
      cases t with
      | chr c =>
        have hc : c ≠ lbrace := hchr c (List.mem_cons_self _ _)
        have hf : flattenTok (STok.chr c :: ts') = c :: flattenTok ts' := rfl
        rw [hf, repAll_cons, if_neg (by
          rintro ⟨_, hh⟩
          rw [List.isPrefixOf_iff_prefix] at hh
          exact hc ((List.cons_prefix_cons.mp
            (show lbrace :: entBody k <+: c :: flattenTok ts' from hh)).1).symm)]
        rw [repAll_cons, if_neg (by
          rintro ⟨_, hh⟩
          rw [List.isPrefixOf_iff_prefix] at hh
          exact STok.noConfusion (List.cons_prefix_cons.mp
            (show STok.ph k :: [] <+: STok.chr c :: ts' from hh)).1)]
        rw [ih ts' (by simp) (fun d hd => hchr d (List.mem_cons_of_mem _ hd))]
        rfl
      | ph j =>
        by_cases hjk : j = k
        · subst hjk
          have hf : flattenTok (STok.ph j :: ts') =
              lbrace :: (entBody j ++ flattenTok ts') := rfl
          rw [hf, repAll_cons, if_pos ⟨by simp [entPlaceholder], by
            rw [List.isPrefixOf_iff_prefix]
            exact ⟨flattenTok ts', by simp [entPlaceholder, entBody]⟩⟩]
          have hdrop : (entBody j ++ flattenTok ts').drop
              ((entPlaceholder j).length - 1) = flattenTok ts' := by
            have hlen : (entPlaceholder j).length - 1 = (entBody j).length := by
              simp [entPlaceholder]
            rw [hlen, List.drop_left]
          rw [hdrop]
          rw [repAll_cons, if_pos ⟨by simp, by simp [List.isPrefixOf]⟩]
          simp only [List.length_singleton, Nat.sub_self, List.drop_zero]
          rw [flattenTok_append, flattenTok_map_chr]
          rw [ih ts' (by simp) (fun d hd => hchr d (List.mem_cons_of_mem _ hd))]
        · have hf : flattenTok (STok.ph j :: ts') =
              entPlaceholder j ++ flattenTok ts' := rfl
          rw [hf, repAll_skip (entPlaceholder k) id (entPlaceholder j)
            (flattenTok ts') ?nm]
          case nm =>
            intro sfx hsne hsfx hpp
            rw [List.isPrefixOf_iff_prefix] at hpp
            rcases List.suffix_cons_iff.mp
              (show sfx <:+ lbrace :: entBody j from hsfx) with rfl | hsb
            · exact hjk (ph_prefix_det (show entPlaceholder k <+:
                entPlaceholder j ++ flattenTok ts' from by
                  simpa [entPlaceholder] using hpp)).symm
            · cases sfx with
              | nil => exact hsne rfl
              | cons s0 sfx' =>
                have hs0 : lbrace = s0 := (List.cons_prefix_cons.mp
                  (show lbrace :: entBody k <+:
                    s0 :: (sfx' ++ flattenTok ts') from hpp)).1
                cases hs0
                exact absurd (hsb.subset (List.mem_cons_self _ _))
                  (lbrace_not_mem_entBody j)
          rw [repAll_cons, if_neg (by
            rintro ⟨_, hh⟩
            rw [List.isPrefixOf_iff_prefix] at hh
            have := (List.cons_prefix_cons.mp
              (show STok.ph k :: [] <+: STok.ph j :: ts' from hh)).1
            exact hjk (STok.ph.inj this).symm)]
          rw [ih ts' (by simp) (fun d hd => hchr d (List.mem_cons_of_mem _ hd))]
          rfl

/-- `isSub` decides the infix relation. -/
theorem isSub_iff_occurs [DecidableEq α] (needle : List α) :
    ∀ hay : List α, isSub needle hay = true ↔ needle <:+: hay := by
  intro hay
  induction hay with
  | nil =>
    show needle.isEmpty = true ↔ _
    rw [List.isEmpty_iff, List.infix_nil]
  | cons c rest ih =>
    show (needle.isPrefixOf (c :: rest) || isSub needle rest) = true ↔ _
    rw [Bool.or_eq_true, List.isPrefixOf_iff_prefix, ih, List.infix_cons_iff]

/-- The guarded `(index, id)` pairs recorded by the extraction loop. -/
def guardedPairsIdx (route : List Char) :
    List (List Char) → ℕ → List (ℕ × List Char)
  | [], _ => []
  | id :: rest, i =>
    if id ≠ [] ∧ isSub id route = true then
      (i, id) :: guardedPairsIdx route rest (i + 1)
    else guardedPairsIdx route rest (i + 1)

/-- Token-level mirror of the template accumulation of
`_extract_structural_pattern`. -/
def tokExtract (route : List Char) :
    List (List Char) → ℕ → List STok → List STok
  | [], _, ts => ts
  | id :: rest, i, ts =>
    if id ≠ [] ∧ isSub id route = true then
      tokExtract route rest (i + 1) (repAll (id.map STok.chr) [STok.ph i] ts)
    else tokExtract route rest (i + 1) ts

/-- Token-level mirror of the substitution fold of `_apply_structural_cache`
over the entity-id part of the mapping. -/
def tokSubstFold (pairs : List (ℕ × List Char)) (ts : List STok) : List STok :=
  pairs.foldl (fun acc p => repAll [STok.ph p.1] (p.2.map STok.chr) acc) ts

/-- Lookup in an index-keyed environment (first match wins). -/
def envLookup (E : List (ℕ × List Char)) (k : ℕ) : List Char :=
  match E.find? (fun p => p.1 == k) with
  | some p => p.2
  | none => []

/-- Expand every placeholder token through an environment. -/
def expandTok (E : List (ℕ × List Char)) (ts : List STok) : List STok :=
  ts.flatMap (fun t =>
    match t with
    | STok.chr c => [STok.chr c]
    | STok.ph k => (envLookup E k).map STok.chr)

/-- The recorded mapping is the guarded pair list, rendered through
`entPlaceholder`, and does not depend on the evolving template. -/
theorem extractStructAux_snd (route : List Char) :
    ∀ (ids : List (List Char)) (i : ℕ) (pr : List Char),
      (extractStructAux route ids i pr).2 =
        (guardedPairsIdx route ids i).map
          (fun p => (entPlaceholder p.1, p.2)) := by
  intro ids
  induction ids with
  | nil => intro i pr; rfl
  | cons id rest ih =>
    intro i pr
    simp only [extractStructAux, guardedPairsIdx]
    by_cases h : id ≠ [] ∧ isSub id route = true
    · rw [if_pos h, if_pos h]
      simp only [List.map_cons]
      rw [ih]
    · rw [if_neg h, if_neg h]
      exact ih (i + 1) pr

/-- The evolving template is the flattening of the token-level state. -/
theorem extractStructAux_fst (route : List Char) (N : ℕ) :
    ∀ (ids : List (List Char)),
      (∀ id ∈ ids, lbrace ∉ id ∧ rbrace ∉ id ∧
        ∀ j, j < N → ¬ id <:+: entPlaceholder j) →
      ∀ (i : ℕ), i + ids.length ≤ N →
      ∀ (ts : List STok), (∀ m, STok.ph m ∈ ts → m < N) →
        (extractStructAux route ids i (flattenTok ts)).1 =
          flattenTok (tokExtract route ids i ts) := by
  intro ids
  induction ids with
  | nil => intro _ i _ ts _; rfl
  | cons id rest ih =>
    intro hids i hiN ts hts
    have hid := hids id (List.mem_cons_self _ _)
    have hlen : i + (id :: rest).length ≤ N := hiN
    simp only [List.length_cons] at hlen
    simp only [extractStructAux, tokExtract]
    by_cases h : id ≠ [] ∧ isSub id route = true
    · rw [if_pos h, if_pos h]
      rw [repAll_flatten_fwd N i h.1 hid.1 hid.2.1 hid.2.2 ts hts]
      exact ih (fun id2 h2 => hids id2 (List.mem_cons_of_mem _ h2)) (i + 1)
        (by omega) _
        (fun m hm => by
          rcases mem_repAll _ _ _ _ hm with h1 | h2
          · exact hts m h1
          · simp only [List.mem_singleton] at h2
            rw [STok.ph.inj h2]
            omega)
    · rw [if_neg h, if_neg h]
      exact ih (fun id2 h2 => hids id2 (List.mem_cons_of_mem _ h2)) (i + 1)
        (by omega) ts hts

/-- Guarded pair indices are at least the starting index. -/
theorem guardedPairsIdx_ge (route : List Char) :
    ∀ (ids : List (List Char)) (i : ℕ) (p : ℕ × List Char),
      p ∈ guardedPairsIdx route ids i → i ≤ p.1 := by
  intro ids
  induction ids with
  | nil => intro i p h; exact absurd h (by simp [guardedPairsIdx])
  | cons id rest ih =>
    intro i p h
    simp only [guardedPairsIdx] at h
    by_cases hg : id ≠ [] ∧ isSub id route = true
    · rw [if_pos hg] at h
      rcases List.mem_cons.mp h with rfl | h'
      · exact le_rfl
      · have := ih (i + 1) p h'
        omega
    · rw [if_neg hg] at h
      have := ih (i + 1) p h
      omega

/-- Guarded pair values come from the id list. -/
theorem guardedPairsIdx_mem (route : List Char) :
    ∀ (ids : List (List Char)) (i : ℕ) (p : ℕ × List Char),
      p ∈ guardedPairsIdx route ids i → p.2 ∈ ids := by
  intro ids
  induction ids with
  | nil => intro i p h; exact absurd h (by simp [guardedPairsIdx])
  | cons id rest ih =>
    intro i p h
    simp only [guardedPairsIdx] at h
    by_cases hg : id ≠ [] ∧ isSub id route = true
    · rw [if_pos hg] at h
      rcases List.mem_cons.mp h with rfl | h'
      · exact List.mem_cons_self _ _
      · exact List.mem_cons_of_mem _ (ih (i + 1) p h')
    · rw [if_neg hg] at h
      exact List.mem_cons_of_mem _ (ih (i + 1) p h)

/-- Each recorded pair is found by environment lookup: indices increase
strictly, so the first match is the recorded one. -/
theorem envLookup_guarded (route : List Char) :
    ∀ (ids : List (List Char)) (i : ℕ) (k : ℕ) (v : List Char),
      (k, v) ∈ guardedPairsIdx route ids i →
      envLookup (guardedPairsIdx route ids i) k = v := by
  intro ids
  induction ids with
  | nil => intro i k v h; exact absurd h (by simp [guardedPairsIdx])
  | cons id rest ih =>
    intro i k v h
    simp only [guardedPairsIdx] at h ⊢
    by_cases hg : id ≠ [] ∧ isSub id route = true
    · rw [if_pos hg] at h ⊢
      rcases List.mem_cons.mp h with he | h'
      · rw [show k = i from congrArg Prod.fst he,
          show v = id from congrArg Prod.snd he]
        unfold envLookup
        rw [List.find?_cons_of_pos _ (by simp)]
      · have hk : i + 1 ≤ k := guardedPairsIdx_ge route rest (i + 1) (k, v) h'
        unfold envLookup
        rw [List.find?_cons_of_neg _ (by
          simp only [beq_iff_eq]
          omega)]
        exact ih (i + 1) k v h'
    · rw [if_neg hg] at h ⊢
      exact ih (i + 1) k v h

/-- `expandTok` distributes over append. -/
theorem expandTok_append (E : List (ℕ × List Char)) (a b : List STok) :
    expandTok E (a ++ b) = expandTok E a ++ expandTok E b := by
  simp [expandTok]

/-- `expandTok` is the identity on character tokens. -/
theorem expandTok_map_chr (E : List (ℕ × List Char)) : ∀ l : List Char,
    expandTok E (l.map STok.chr) = l.map STok.chr := by
  intro l
  induction l with
  | nil => rfl
  | cons c rest ih =>
    simp only [List.map_cons, expandTok, List.flatMap_cons] at ih ⊢
    rw [ih]
    rfl

/-- `expandTok` is invariant under a replacement whose sides expand alike. -/
theorem expandTok_repAll (E : List (ℕ × List Char)) (old new : List STok)
    (hexp : expandTok E new = expandTok E old) :
    ∀ ts, expandTok E (repAll old new ts) = expandTok E ts := by
  intro ts
  induction ts using list_length_ind with
  | step ts ih =>
    cases ts with
    | nil => rw [repAll_nil]
    | cons t ts' =>
      rw [repAll_cons]
      by_cases h : old ≠ [] ∧ old.isPrefixOf (t :: ts') = true
      · rw [if_pos h]
        have hsplit : t :: ts' = old ++ ts'.drop (old.length - 1) := by
          rcases List.isPrefixOf_iff_prefix.mp h.2 with ⟨u, hu⟩
          have hu2 : u = ts'.drop (old.length - 1) := by
            have hdu := congrArg (List.drop old.length) hu
            rw [List.drop_left] at hdu
            rw [hdu]
            cases old with
            | nil => exact absurd rfl h.1
            | cons o os => simp
          rw [← hu, hu2]
        conv_rhs => rw [hsplit]
        rw [expandTok_append, expandTok_append, hexp]
        rw [ih (ts'.drop (old.length - 1)) (by
          have := (List.drop_sublist (old.length - 1) ts').length_le
          simp only [List.length_cons]
          omega)]
      · rw [if_neg h]
        simp only [expandTok, List.flatMap_cons]
        rw [show (repAll old new ts').flatMap _ = expandTok E (repAll old new ts')
          from rfl, ih ts' (by simp)]
        rfl

/-- Chr-only token lists expand to themselves. -/
theorem expandTok_chr_only (E : List (ℕ × List Char)) :
    ∀ ts : List STok, (∀ k, STok.ph k ∉ ts) → expandTok E ts = ts := by
  intro ts
  induction ts with
  | nil => intro _; rfl
  | cons t ts' ih =>
    intro hph
    cases t with
    | chr c =>
      simp only [expandTok, List.flatMap_cons] at ih ⊢
      rw [ih (fun k hk => hph k (List.mem_cons_of_mem _ hk))]
      rfl
    | ph k => exact absurd (List.mem_cons_self _ _) (hph k)

/-- Forward extraction preserves expansion through the full environment. -/
theorem tokExtract_expand (route : List Char) (E : List (ℕ × List Char)) :
    ∀ (ids : List (List Char)) (i : ℕ) (ts : List STok),
      (∀ p : ℕ × List Char, p ∈ guardedPairsIdx route ids i →
        envLookup E p.1 = p.2) →
      expandTok E (tokExtract route ids i ts) = expandTok E ts := by
  intro ids
  induction ids with
  | nil => intro i ts _; rfl
  | cons id rest ih =>
    intro i ts henv
    simp only [tokExtract]
    by_cases hg : id ≠ [] ∧ isSub id route = true
    · rw [if_pos hg]
      rw [ih (i + 1) _ (fun p hp => henv p (by
        simp only [guardedPairsIdx]
        rw [if_pos hg]
        exact List.mem_cons_of_mem _ hp))]
      apply expandTok_repAll
      have hi : envLookup E i = id := henv (i, id) (by
        simp only [guardedPairsIdx]
        rw [if_pos hg]
        exact List.mem_cons_self _ _)
      rw [show expandTok E [STok.ph i] = (envLookup E i).map STok.chr from by
        simp [expandTok], hi, expandTok_map_chr]
    · rw [if_neg hg]
      exact ih (i + 1) ts (fun p hp => henv p (by
        simp only [guardedPairsIdx]
        rw [if_neg hg]
        exact hp))

/-- Backward substitution preserves expansion through the environment. -/
theorem tokSubstFold_expand (E : List (ℕ × List Char)) :
    ∀ (pairs : List (ℕ × List Char)),
      (∀ p ∈ pairs, envLookup E p.1 = p.2) →
      ∀ ts, expandTok E (tokSubstFold pairs ts) = expandTok E ts := by
  intro pairs
  induction pairs with
  | nil => intro _ ts; rfl
  | cons p rest ih =>
    intro henv ts
    show expandTok E (tokSubstFold rest (repAll [STok.ph p.1]
      (p.2.map STok.chr) ts)) = expandTok E ts
    rw [ih (fun q hq => henv q (List.mem_cons_of_mem _ hq))]
    apply expandTok_repAll
    rw [expandTok_map_chr, show expandTok E [STok.ph p.1] =
      (envLookup E p.1).map STok.chr from by simp [expandTok],
      henv p (List.mem_cons_self _ _)]

/-- Placeholder tokens produced by extraction are recorded pairs. -/
theorem tokExtract_ph (route : List Char) :
    ∀ (ids : List (List Char)) (i : ℕ) (ts : List STok) (k : ℕ),
      STok.ph k ∈ tokExtract route ids i ts →
      STok.ph k ∈ ts ∨ k ∈ (guardedPairsIdx route ids i).map Prod.fst := by
  intro ids
  induction ids with
  | nil => intro i ts k h; exact Or.inl h
  | cons id rest ih =>
    intro i ts k h
    simp only [tokExtract] at h
    simp only [guardedPairsIdx]
    by_cases hg : id ≠ [] ∧ isSub id route = true
    · rw [if_pos hg] at h
      rw [if_pos hg]
      rcases ih (i + 1) _ k h with h1 | h2
      · rcases mem_repAll _ _ _ _ h1 with h3 | h4
        · exact Or.inl h3
        · simp only [List.mem_singleton] at h4
          exact Or.inr (by
            rw [STok.ph.inj h4]
            simp)
      · exact Or.inr (by
          simp only [List.map_cons, List.mem_cons]
          exact Or.inr h2)
    · rw [if_neg hg] at h
      rw [if_neg hg]
      exact ih (i + 1) ts k h

/-- Character tokens survive extraction untouched. -/
theorem tokExtract_chr (route : List Char) :
    ∀ (ids : List (List Char)) (i : ℕ) (ts : List STok) (c : Char),
      STok.chr c ∈ tokExtract route ids i ts → STok.chr c ∈ ts := by
  intro ids
  induction ids with
  | nil => intro i ts c h; exact h
  | cons id rest ih =>
    intro i ts c h
    simp only [tokExtract] at h
    by_cases hg : id ≠ [] ∧ isSub id route = true
    · rw [if_pos hg] at h
      rcases mem_repAll _ _ _ _ (ih (i + 1) _ c h) with h1 | h2
      · exact h1
      · simp only [List.mem_singleton] at h2
        exact STok.noConfusion h2
    · rw [if_neg hg] at h
      exact ih (i + 1) ts c h

/-- After the substitution fold, no placeholder token covered by the pair
list survives. -/
theorem tokSubstFold_elim :
    ∀ (pairs : List (ℕ × List Char)) (ts : List STok),
      (∀ k, STok.ph k ∈ ts → k ∈ pairs.map Prod.fst) →
      ∀ k, STok.ph k ∉ tokSubstFold pairs ts := by
  intro pairs
  induction pairs with
  | nil =>
    intro ts hcov k hk
    exact absurd (hcov k hk) (by simp)
  | cons p rest ih =>
    intro ts hcov k hk
    refine ih (repAll [STok.ph p.1] (p.2.map STok.chr) ts) ?_ k hk
    intro m hm
    rw [repAll_singleton] at hm
    rcases List.mem_flatMap.mp hm with ⟨t, ht, hmt⟩
    by_cases he : t = STok.ph p.1
    · rw [if_pos he] at hmt
      rcases List.mem_map.mp hmt with ⟨d, _, hde⟩
      exact STok.noConfusion hde
    · rw [if_neg he] at hmt
      simp only [List.mem_singleton] at hmt
      subst hmt
      have := hcov m ht
      simp only [List.map_cons, List.mem_cons] at this
      rcases this with h1 | h2
      · exact absurd (h1 ▸ rfl) he
      · exact h2

/-- The character-level substitution fold over the entity mapping agrees with
the token-level fold, via flattening. -/
theorem applySubst_flatten :
    ∀ (pairs : List (ℕ × List Char)),
      (∀ p ∈ pairs, lbrace ∉ p.2) →
      ∀ ts : List STok, (∀ c, STok.chr c ∈ ts → c ≠ lbrace) →
        applySubst (pairs.map (fun p => (entPlaceholder p.1, p.2)))
            (flattenTok ts) =
          flattenTok (tokSubstFold pairs ts) := by
  intro pairs
  induction pairs with
  | nil => intro _ ts _; rfl
  | cons p rest ih =>
    intro hlb ts hchr
    simp only [applySubst, tokSubstFold, List.map_cons, List.foldl_cons]
    rw [repAll_flatten_bwd p.1 p.2 ts hchr]
    exact ih (fun q hq => hlb q (List.mem_cons_of_mem _ hq)) _ (fun c hc => by
      rcases mem_repAll _ _ _ _ hc with h1 | h2
      · exact hchr c h1
      · rcases List.mem_map.mp h2 with ⟨d, hd, he⟩
        intro hce
        subst hce
        exact hlb p (List.mem_cons_self _ _) ((STok.chr.inj he) ▸ hd))

/-- A query-derived placeholder key (brace-open, second character not `E`)
never occurs in a flattened template whose character tokens are brace-free:
replacing it is a no-op. -/
theorem qmap_noop (ts : List STok) (hchr : ∀ c, STok.chr c ∈ ts → c ≠ lbrace)
    {key : List Char} (hkey : ∃ c cs, key = lbrace :: c :: cs ∧
      c ≠ Char.ofNat 69) (v : List Char) :
    repAll key v (flattenTok ts) = flattenTok ts := by
  apply repAll_no_occ
  rintro sfx hsfx ⟨hne, hp⟩
  rcases hkey with ⟨c, cs, rfl, hc⟩
  rw [List.isPrefixOf_iff_prefix] at hp
  cases sfx with
  | nil =>
    rcases List.prefix_nil.mp hp with h
    exact List.noConfusion h
  | cons s0 sfx' =>
    have hs0 : lbrace = s0 := (List.cons_prefix_cons.mp hp).1
    have hp' : c :: cs <+: sfx' := (List.cons_prefix_cons.mp hp).2
    cases hs0
    rcases lbrace_suffix_flatten ts hchr sfx' hsfx with ⟨j, r, rfl⟩
    have hE : entBody j = Char.ofNat 69 ::
        ("NTITY_ID_".toList ++ natChars j ++ [rbrace]) := by
      simp [entBody]
    rw [hE] at hp'
    exact hc (List.cons_prefix_cons.mp (by simpa using hp')).1

/-- The query-derived part of the mapping is a no-op on the flattened
template. -/
theorem applySubst_qmap_noop (ts : List STok)
    (hchr : ∀ c, STok.chr c ∈ ts → c ≠ lbrace) :
    ∀ (qmap : List (List Char × List Char)),
      (∀ kv ∈ qmap, ∃ c cs, kv.1 = lbrace :: c :: cs ∧ c ≠ Char.ofNat 69) →
      applySubst qmap (flattenTok ts) = flattenTok ts := by
  intro qmap
  induction qmap with
  | nil => intro _; rfl
  | cons kv rest ih =>
    intro hq
    simp only [applySubst, List.foldl_cons]
    rw [qmap_noop ts hchr (hq kv (List.mem_cons_self _ _)) kv.2]
    exact ih (fun kv2 h2 => hq kv2 (List.mem_cons_of_mem _ h2))

/-- `applySubst` processes a concatenated mapping left part first. -/
theorem applySubst_append (a b : List (List Char × List Char)) (s : List Char) :
    applySubst (a ++ b) s = applySubst b (applySubst a s) := by
  simp [applySubst, List.foldl_append]

/-- C9: structural round-trip of `_extract_structural_pattern` /
`_apply_structural_cache`.  The claim as stated (any brace-free route) is
refuted by `c9_counterexample`; it holds under the additional guards below:
every entity id is brace-free and does not occur inside any placeholder text
`\x7bENTITY_ID_j\x7d` with `j` below the entity count, and every query-derived
mapping key is `\x7b` followed by a character other than `E` (as the
`PERSON`/`NUMBER`/`WORD` placeholders are).  Then replaying the recorded
mapping (query-derived entries first, in insertion order, as
`_apply_structural_cache` does) over the templated route reproduces the
original route, and the unresolved-placeholder abort never fires. -/
theorem c9_structural_roundtrip (route : List Char) (ids : List (List Char))
    (qmap : List (List Char × List Char))
    (hroute : lbrace ∉ route)
    (hids : ∀ id ∈ ids, lbrace ∉ id ∧ rbrace ∉ id ∧
      ∀ j, j < ids.length → ¬ id <:+: entPlaceholder j)
    (hq : ∀ kv ∈ qmap, ∃ c cs, kv.1 = lbrace :: c :: cs ∧
      c ≠ Char.ofNat 69) :
    applySubst (qmap ++ extractEntityMapping route ids)
        (extractRouteTemplate route ids) = route ∧
    structuralAbort (extractRouteTemplate route ids) = false := by
  set TS := tokExtract route ids 0 (route.map STok.chr) with hTSdef
  set E := guardedPairsIdx route ids 0 with hEdef
  have hts0ph : ∀ m, STok.ph m ∈ route.map STok.chr → m < ids.length := by
    intro m hm
    rcases List.mem_map.mp hm with ⟨c, _, he⟩
    exact absurd he (fun h => STok.noConfusion h)
  have hTS : extractRouteTemplate route ids = flattenTok TS := by
    have h5 := extractStructAux_fst route ids.length ids hids 0 (by omega)
      (route.map STok.chr) hts0ph
    rw [flattenTok_map_chr] at h5
    exact h5
  have hmap : extractEntityMapping route ids =
      E.map (fun p => (entPlaceholder p.1, p.2)) :=
    extractStructAux_snd route ids 0 route
  have hchrTS : ∀ c, STok.chr c ∈ TS → c ≠ lbrace := by
    intro c hc hce
    subst hce
    have h1 := tokExtract_chr route ids 0 _ _ hc
    rcases List.mem_map.mp h1 with ⟨d, hd, he⟩
    exact hroute ((STok.chr.inj he) ▸ hd)
  have henv : ∀ p : ℕ × List Char, p ∈ E → envLookup E p.1 = p.2 := by
    intro p hp
    exact envLookup_guarded route ids 0 p.1 p.2
      (by simpa only [Prod.mk.eta] using hp)
  have hcov : ∀ k, STok.ph k ∈ TS → k ∈ E.map Prod.fst := by
    intro k hk
    rcases tokExtract_ph route ids 0 _ k hk with h1 | h2
    · rcases List.mem_map.mp h1 with ⟨d, _, he⟩
      exact absurd he (fun h => STok.noConfusion h)
    · exact h2
  have hnoph : ∀ k, STok.ph k ∉ tokSubstFold E TS :=
    tokSubstFold_elim E TS hcov
  have hTeq : tokSubstFold E TS = route.map STok.chr := by
    have h1 : expandTok E (tokSubstFold E TS) = expandTok E TS :=
      tokSubstFold_expand E E henv TS
    have h2 : expandTok E TS = expandTok E (route.map STok.chr) :=
      tokExtract_expand route E ids 0 _ henv
    have h3 : expandTok E (route.map STok.chr) = route.map STok.chr :=
      expandTok_map_chr E route
    have h4 : expandTok E (tokSubstFold E TS) = tokSubstFold E TS :=
      expandTok_chr_only E _ hnoph
    rw [← h4, h1, h2, h3]
  have hlbE : ∀ p : ℕ × List Char, p ∈ E → lbrace ∉ p.2 := by
    intro p hp
    exact (hids p.2 (guardedPairsIdx_mem route ids 0 p hp)).1
  constructor
  · rw [hTS, hmap, applySubst_append,
      applySubst_qmap_noop TS hchrTS qmap hq,
      applySubst_flatten E hlbE TS hchrTS, hTeq, flattenTok_map_chr]
  · rw [hTS]
    by_cases hl : lbrace ∈ flattenTok TS
    · rcases mem_flattenTok hl with h1 | ⟨j, hj, _⟩
      · exact absurd rfl (hchrTS lbrace h1)
      · rcases List.append_of_mem hj with ⟨u, v, huv⟩
        have hinf : "ENTITY_ID_".toList <:+: flattenTok TS := by
          rw [huv, flattenTok_append]
          refine ⟨flattenTok u ++ [lbrace],
            natChars j ++ [rbrace] ++ flattenTok v, ?_⟩
          rw [show flattenTok (STok.ph j :: v) =
            entPlaceholder j ++ flattenTok v from rfl]
          simp [entPlaceholder, entBody]
        have hcont : pyContains (flattenTok TS) "ENTITY_ID_".toList = true :=
          (isSub_iff_occurs _ _).mpr hinf
        simp only [structuralAbort, hcont, Bool.not_true, Bool.and_false]
    · have hcont2 : pyContains (flattenTok TS) [lbrace] = false := by
        cases hb : pyContains (flattenTok TS) [lbrace] with
        | false => rfl
        | true =>
          rcases (isSub_iff_occurs _ _).mp hb with ⟨s1, s2, hs⟩
          exact absurd (show lbrace ∈ flattenTok TS from by
            rw [← hs]; simp) hl
      simp only [structuralAbort, hcont2, Bool.false_and]

/-- Witness: a concrete round-trip through the structural cache.  Route
`/users/alpha/profile` with entity id `alpha` and a query-derived
`PERSON` placeholder: extraction templates the route and substitution
restores it, with the abort guard staying quiet. -/
theorem c9_structural_roundtrip_witness :
    applySubst ([("{PERSON_0}".toList, "alpha".toList)] ++
        extractEntityMapping "/users/alpha/profile".toList ["alpha".toList])
        (extractRouteTemplate "/users/alpha/profile".toList
          ["alpha".toList]) = "/users/alpha/profile".toList ∧
    structuralAbort (extractRouteTemplate "/users/alpha/profile".toList
      ["alpha".toList]) = false :=
  c9_structural_roundtrip _ _ _ (by decide) (by decide)
    (by
      intro kv hkv
      rcases List.mem_singleton.mp hkv with rfl
      exact ⟨Char.ofNat 80, "ERSON_0\x7d".toList, by decide, by decide⟩)

/-- The C9 claim as stated is false: the route `/a/X/0` contains no brace,
yet with recorded entity ids `X` and `0` the extraction replaces the `0`
inside the already-inserted placeholder text, and substituting the recorded
mapping back does not restore the original route. -/
theorem c9_counterexample :
    lbrace ∉ "/a/X/0".toList ∧
    applySubst (extractEntityMapping "/a/X/0".toList
        ["X".toList, "0".toList])
      (extractRouteTemplate "/a/X/0".toList ["X".toList, "0".toList]) ≠
      "/a/X/0".toList := by
  decide
